import Mathlib

/-!
# Shamir secret sharing over a prime field: field arithmetic, Vandermonde
vectors and Lagrange weights

A shallow embedding of `shamir.go` (and of the share / reconstruction loops of
`main.go`).  Machine integers are naturals (`uint64`) or integers (`int64`)
with explicit wrap-around.  Recursion and unbounded loops carry a fuel
argument: `Fault.outOfFuel` at every fuel means the Go code never returns,
`Fault.divByZero` is Go's run-time panic on a zero divisor, and
`Fault.lenOutOfRange` / `Fault.outOfMemory` are the two ways in which the
allocation of a slice fails.
-/

namespace Shamir

/-- Ways in which an embedded call fails to produce a value. -/
inductive Fault where
  | outOfFuel
  | divByZero
  | lenOutOfRange
  | outOfMemory
  deriving DecidableEq, Repr

/-- Number of `uint64` values. -/
def word : Nat := 2 ^ 64

/-- Addition of `uint64` values, wrapping. -/
def add64 (a b : Nat) : Nat := (a + b) % word

/-- Subtraction of `uint64` values, wrapping. -/
def sub64 (a b : Nat) : Nat := (a + word - b % word) % word

/-- Multiplication of `uint64` values, wrapping. -/
def mul64 (a b : Nat) : Nat := (a * b) % word

/-- Go's `%` on `uint64`: a zero divisor panics. -/
def mod64 (a p : Nat) : Except Fault Nat :=
  if p = 0 then .error .divByZero else .ok (a % p)

/-- Reduction of an integer into the `int64` range (two's complement). -/
def wrapInt64 (z : Int) : Int := (z + 2 ^ 63) % 2 ^ 64 - 2 ^ 63

/-- Conversion `int64(u)` of a `uint64`. -/
def toInt64 (u : Nat) : Int := wrapInt64 (u : Int)

/-- Conversion `uint64(z)` of an `int64`. -/
def toUint64 (z : Int) : Nat := (z % 2 ^ 64).toNat

/-- `MultiplyNonOverflow(x, y, p)` of `shamir.go`. -/
def MultiplyNonOverflow : Nat → Nat → Nat → Nat → Except Fault Nat
  | 0, _, _, _ => .error .outOfFuel
  | fuel + 1, x, y, p =>
    if y = 1 then .ok x
    else if x = 1 then .ok y
    else if y % 2 = 0 then
      match mod64 (mul64 2 x) p with
      | .error e => .error e
      | .ok locA => MultiplyNonOverflow fuel locA (y / 2) p
    else
      match MultiplyNonOverflow fuel x (sub64 y 1) p with
      | .error e => .error e
      | .ok r => mod64 (add64 x r) p

/-- The loop of `Pow`: `n` more iterations of `res = MultiplyNonOverflow(res, x, p)`. -/
def powLoop (fuel x p : Nat) : Nat → Nat → Except Fault Nat
  | 0, res => .ok res
  | n + 1, res =>
    match MultiplyNonOverflow fuel res x p with
    | .error e => .error e
    | .ok r => powLoop fuel x p n r

/-- `Pow(x, y, p)` of `shamir.go`. -/
def Pow (fuel x y p : Nat) : Except Fault Nat :=
  if y = 0 then .ok 1 else powLoop fuel x p y 1

/-- The loop of `MultiplicativeInverse` on the state `(r_0, r_1, t_0, t_1)`;
it returns `t_1` at the `break`. -/
def inverseLoop : Nat → Int → Int → Int → Int → Except Fault Int
  | 0, _, _, _, _ => .error .outOfFuel
  | fuel + 1, r_0, r_1, t_0, t_1 =>
    if r_1 = 0 then .error .divByZero
    else
      let q := wrapInt64 (Int.tdiv r_0 r_1)
      let new_r := wrapInt64 (r_0 - wrapInt64 (q * r_1))
      if new_r = 0 then .ok t_1
      else
        let new_t := wrapInt64 (t_0 - wrapInt64 (q * t_1))
        inverseLoop fuel r_1 new_r t_1 new_t

/-- `MultiplicativeInverse(x, p)` of `shamir.go`. -/
def MultiplicativeInverse (fuel x p : Nat) : Except Fault Nat :=
  match inverseLoop fuel (toInt64 p) (toInt64 x) 0 1 with
  | .error e => .error e
  | .ok t_1 =>
    if t_1 > 0 then .ok (toUint64 t_1)
    else .ok (toUint64 (wrapInt64 (toInt64 p + t_1)))

/-- The loop of `GenerateVandermonde`: entries `i, i+1, ..., i+n-1`. -/
def vandermondeLoop (fuel evalPoint p : Nat) : Nat → Nat → Except Fault (List Nat)
  | 0, _ => .ok []
  | n + 1, i =>
    match Pow fuel evalPoint i p with
    | .error e => .error e
    | .ok v =>
      match vandermondeLoop fuel evalPoint p n (i + 1) with
      | .error e => .error e
      | .ok vs => .ok (v :: vs)

/-- `GenerateVandermonde(evalPoint, threshold, p)` of `shamir.go` from the
allocated slice on: the `threshold` entries computed by the loop, in index
order. The allocation itself is `makeSlice`, and the whole function with it is
`GenerateVandermondeFull`. -/
def GenerateVandermonde (fuel evalPoint threshold p : Nat) : Except Fault (List Nat) :=
  vandermondeLoop fuel evalPoint p threshold 0

/-- The largest number of bytes the Go runtime allocates on a 64-bit platform
(`maxAlloc`, 48 heap address bits). -/
def maxAlloc : Nat := 2 ^ 48

/-- `make([]uint64, len)`: the runtime panics (`makeslice: len out of range`)
when the `len` entries of 8 bytes exceed `maxAlloc`, and the program dies when
the heap cannot provide them, `avail` being the number of entries the heap can
still provide; otherwise the result is the slice of `len` zeros. -/
def makeSlice (avail len : Nat) : Except Fault (List Nat) :=
  if maxAlloc < 8 * len then .error .lenOutOfRange
  else if avail < len then .error .outOfMemory
  else .ok (List.replicate len 0)

/-- The loop of `GenerateVandermonde` on the allocated slice `res`: `n` more
assignments `res[i] = Pow(evalPoint, i, p)`, starting at index `i`. -/
def fillLoop (fuel evalPoint p : Nat) : Nat → Nat → List Nat → Except Fault (List Nat)
  | 0, _, res => .ok res
  | n + 1, i, res =>
    match Pow fuel evalPoint i p with
    | .error e => .error e
    | .ok v => fillLoop fuel evalPoint p n (i + 1) (res.set i v)

/-- `GenerateVandermonde(evalPoint, threshold, p)` of `shamir.go` in full:
`res := make([]uint64, threshold)`, then the loop assigning every entry. -/
def GenerateVandermondeFull (avail fuel evalPoint threshold p : Nat) :
    Except Fault (List Nat) :=
  match makeSlice avail threshold with
  | .error e => .error e
  | .ok res => fillLoop fuel evalPoint p threshold 0 res

/-- `SubField(a, b, p)` of `shamir.go`. -/
def SubField : Nat → Nat → Nat → Nat → Except Fault Nat
  | 0, _, _, _ => .error .outOfFuel
  | fuel + 1, a, b, p =>
    if a > b then mod64 (sub64 a b) p
    else SubField fuel (add64 a p) b p

/-- The inner loop of `GenerateVandermondeInverse` for the fixed index `i`:
the indices `m, m+1, ..., m+n-1` remain, `innerRes` is the running product. -/
def inverseInner (fuel : Nat) (evalPoints : List Nat) (p i : Nat) :
    Nat → Nat → Nat → Except Fault Nat
  | 0, _, innerRes => .ok innerRes
  | n + 1, m, innerRes =>
    if m ≠ i then
      match SubField fuel (evalPoints.getD m 0) (evalPoints.getD i 0) p with
      | .error e => .error e
      | .ok d =>
        match MultiplicativeInverse fuel d p with
        | .error e => .error e
        | .ok inv =>
          match MultiplyNonOverflow fuel (evalPoints.getD m 0) inv p with
          | .error e => .error e
          | .ok tmp =>
            match MultiplyNonOverflow fuel tmp innerRes p with
            | .error e => .error e
            | .ok r => inverseInner fuel evalPoints p i n (m + 1) r
    else inverseInner fuel evalPoints p i n (m + 1) innerRes

/-- The outer loop of `GenerateVandermondeInverse`: entries `i, ..., i+n-1`. -/
def inverseOuter (fuel : Nat) (evalPoints : List Nat) (p : Nat) :
    Nat → Nat → Except Fault (List Nat)
  | 0, _ => .ok []
  | n + 1, i =>
    match inverseInner fuel evalPoints p i evalPoints.length 0 1 with
    | .error e => .error e
    | .ok w =>
      match inverseOuter fuel evalPoints p n (i + 1) with
      | .error e => .error e
      | .ok ws => .ok (w :: ws)

/-- `GenerateVandermondeInverse(evalPoints, p)` of `shamir.go`. -/
def GenerateVandermondeInverse (fuel : Nat) (evalPoints : List Nat) (p : Nat) :
    Except Fault (List Nat) :=
  inverseOuter fuel evalPoints p evalPoints.length 0

/-- The Lagrange basis coefficient at `0` of the point of index `i`, as the
specification writes it: the product over `m ≠ i` of
`points[m] * (points[m] - points[i])⁻¹` in the field `ZMod p`. -/
def lagrangeCoeff (p : Nat) (pts : List Nat) (i : Nat) : ZMod p :=
  ∏ m ∈ (Finset.range pts.length).filter (fun m => m ≠ i),
    (pts.getD m 0 : ZMod p) * ((pts.getD m 0 : ZMod p) - (pts.getD i 0 : ZMod p))⁻¹

/-- The sum of the products of corresponding entries, in arbitrary precision
(the weighted sums the properties are stated with). -/
def weightedSum (ws vs : List Nat) : Nat :=
  (List.zipWith (fun w v => w * v) ws vs).sum

/-- Modelled from the spec: the algebraic backend (`ringQ.MulScalar`,
`ringQ.Add`, an external library) is taken on scalars modulo `p`, each secret
element being one field scalar. The share of the dealer polynomial with
coefficients `cs` at the point `x` (`main.go`, share contributions) is the
coefficients weighted by `GenerateVandermonde(x, k, p)`, reduced modulo `p`. -/
def shareAt (fuel : Nat) (cs : List Nat) (x k p : Nat) : Except Fault Nat :=
  match GenerateVandermonde fuel x k p with
  | .error e => .error e
  | .ok v => .ok (weightedSum cs v % p)

/-- The shares of one dealer polynomial at each point of a list, in order. -/
def sharesAt (fuel : Nat) (cs : List Nat) (k p : Nat) : List Nat → Except Fault (List Nat)
  | [] => .ok []
  | x :: xs =>
    match shareAt fuel cs x k p with
    | .error e => .error e
    | .ok s =>
      match sharesAt fuel cs k p xs with
      | .error e => .error e
      | .ok ss => .ok (s :: ss)

/-- Modelled from the spec: the algebraic backend is taken on scalars modulo
`p`. The combined share of the party with point `x` (`main.go`, aggregation) is
the sum over all dealers and degrees of coefficient times Vandermonde entry,
reduced modulo `p`. -/
def combinedShareAt (fuel : Nat) (dealers : List (List Nat)) (x k p : Nat) :
    Except Fault Nat :=
  match GenerateVandermonde fuel x k p with
  | .error e => .error e
  | .ok v => .ok ((dealers.map (fun c => weightedSum c v)).sum % p)

/-- The combined shares of all parties, in the order of their points. -/
def combinedShares (fuel : Nat) (dealers : List (List Nat)) (k p : Nat) :
    List Nat → Except Fault (List Nat)
  | [] => .ok []
  | x :: xs =>
    match combinedShareAt fuel dealers x k p with
    | .error e => .error e
    | .ok s =>
      match combinedShares fuel dealers k p xs with
      | .error e => .error e
      | .ok ss => .ok (s :: ss)

/-- Modelled from the spec: the algebraic backend is taken on scalars modulo
`p`. Reconstruction (`main.go`) is the shares weighted by
`GenerateVandermondeInverse` of their points, summed and reduced modulo `p`. -/
def reconstruct (fuel : Nat) (pts shares : List Nat) (p : Nat) : Except Fault Nat :=
  match GenerateVandermondeInverse fuel pts p with
  | .error e => .error e
  | .ok w => .ok (weightedSum w shares % p)

/-- The modulus `ringPrime` of `main.go`. -/
def ringPrime : Nat := 0xfffffffffffc001

/-- `MultiplyNonOverflow` evaluated over unbounded naturals: the same
recursion with exact doubling, exact addition and exact `locB - 1` (taken only
for odd `locB`), to be compared with the `uint64` evaluation. -/
def MultiplyNonOverflowExact : Nat → Nat → Nat → Nat → Except Fault Nat
  | 0, _, _, _ => .error .outOfFuel
  | fuel + 1, x, y, p =>
    if y = 1 then .ok x
    else if x = 1 then .ok y
    else if y % 2 = 0 then
      match mod64 (2 * x) p with
      | .error e => .error e
      | .ok locA => MultiplyNonOverflowExact fuel locA (y / 2) p
    else
      match MultiplyNonOverflowExact fuel x (y - 1) p with
      | .error e => .error e
      | .ok r => mod64 (x + r) p

/-- Runs the recursion of `MultiplyNonOverflow` to depth `fuel` and checks, at
every call, that the first argument is below `p` and that each intermediate
value formed (`2 * locA`, and `locA` plus the result of the recursive call) is
below `2^64`. -/
def stepsInRange : Nat → Nat → Nat → Nat → Bool
  | 0, x, _, p => decide (x < p)
  | fuel + 1, x, y, p =>
    decide (x < p) &&
      (if y = 1 then true
      else if x = 1 then true
      else if y % 2 = 0 then
        decide (2 * x < word) &&
          (match mod64 (2 * x) p with
          | .error _ => true
          | .ok locA => stepsInRange fuel locA (y / 2) p)
      else
        stepsInRange fuel x (y - 1) p &&
          (match MultiplyNonOverflowExact fuel x (y - 1) p with
          | .error _ => true
          | .ok r => decide (x + r < word)))

/-- The evaluation points computed by the setup loop of `main.go`
(`evalPoints[i] = rand.Uint64() % ringPrime`), the successive results of
`rand.Uint64()` being the list `draws`. -/
def setupEvalPoints (draws : List Nat) : List Nat :=
  draws.map (fun r => r % ringPrime)



theorem mod64_ok (a p : Nat) (hp : 0 < p) : mod64 a p = .ok (a % p) := by
  unfold mod64
  rw [if_neg (by omega)]

theorem add64_small (a b : Nat) (h : a + b < 2 ^ 64) : add64 a b = a + b := by
  unfold add64 word
  exact Nat.mod_eq_of_lt h

theorem mul64_small (a b : Nat) (h : a * b < 2 ^ 64) : mul64 a b = a * b := by
  unfold mul64 word
  exact Nat.mod_eq_of_lt h

theorem sub64_small (a b : Nat) (hb : b ≤ a) (ha : a < 2 ^ 64) : sub64 a b = a - b := by
  unfold sub64 word
  have hb' : b % 2 ^ 64 = b := Nat.mod_eq_of_lt (by omega)
  rw [hb']
  have : a + 2 ^ 64 - b = (a - b) + 2 ^ 64 := by omega
  rw [this, Nat.add_mod_right]
  exact Nat.mod_eq_of_lt (by omega)

/-- With a nonzero second operand below `p`, the double-and-add recursion
returns the exact product modulo `p`. -/
theorem MultiplyNonOverflow_eq (p : Nat) (hp : p < 2 ^ 63) :
    ∀ fuel x y, x < p → 1 ≤ y → y < p → y ≤ fuel →
      MultiplyNonOverflow fuel x y p = .ok (x * y % p) := by
  intro fuel
  induction fuel with
  | zero => intro x y _ h1 _ h2; omega
  | succ n ih =>
    intro x y hx hy1 hyp hyf
    have hp0 : 0 < p := by omega
    unfold MultiplyNonOverflow
    by_cases h1 : y = 1
    · subst h1
      rw [if_pos rfl, Nat.mul_one, Nat.mod_eq_of_lt hx]
    · rw [if_neg h1]
      by_cases h2 : x = 1
      · subst h2
        rw [if_pos rfl, Nat.one_mul, Nat.mod_eq_of_lt hyp]
      · rw [if_neg h2]
        by_cases h3 : y % 2 = 0
        · rw [if_pos h3, mod64_ok _ _ hp0, mul64_small 2 x (by omega)]
          simp only
          rw [ih (2 * x % p) (y / 2) (Nat.mod_lt _ hp0) (by omega) (by omega) (by omega)]
          congr 1
          rw [Nat.mod_mul_mod]
          have : 2 * x * (y / 2) = x * y := by
            have h := Nat.div_add_mod y 2
            rw [h3, Nat.add_zero] at h
            calc 2 * x * (y / 2) = x * (2 * (y / 2)) := by ring
              _ = x * y := by rw [h]
          rw [this]
        · rw [if_neg h3, sub64_small y 1 hy1 (by omega)]
          rw [ih x (y - 1) hx (by omega) (by omega) (by omega)]
          simp only
          have hr : x * (y - 1) % p < p := Nat.mod_lt _ hp0
          rw [add64_small _ _ (by omega), mod64_ok _ _ hp0]
          congr 1
          rw [Nat.add_mod_mod]
          have : x + x * (y - 1) = x * y := by
            have : y = (y - 1) + 1 := by omega
            conv_rhs => rw [this]
            ring
          rw [this]



theorem wrapInt64_small (z : Int) (h1 : -2 ^ 63 ≤ z) (h2 : z < 2 ^ 63) : wrapInt64 z = z := by
  unfold wrapInt64
  rw [Int.emod_eq_of_lt (by omega) (by omega)]
  omega

theorem toInt64_small (u : Nat) (h : u < 2 ^ 63) : toInt64 u = (u : Int) := by
  unfold toInt64
  exact wrapInt64_small _ (by omega) (by omega)

theorem toUint64_small (z : Int) (h1 : 0 ≤ z) (h2 : z < 2 ^ 63) : toUint64 z = z.toNat := by
  unfold toUint64
  rw [Int.emod_eq_of_lt h1 (by omega)]

/-- One Euclidean step keeps the determinant `r_0 * t_1 - r_1 * t_0 = ± p` with
alternating signs, and every coefficient formed stays within `[-p, p]`. -/
theorem euclid_step_bounds (P r_0 r_1 t_0 t_1 q m : Int) (h1 : 0 < r_1) (hq : 0 ≤ q)
    (hm : 0 ≤ m) (hdm : r_1 * q + m = r_0)
    (hdet : (0 ≤ t_1 ∧ t_0 ≤ 0 ∧ r_0 * t_1 - r_1 * t_0 = P) ∨
        (t_1 ≤ 0 ∧ 0 ≤ t_0 ∧ r_1 * t_0 - r_0 * t_1 = P)) :
    ((0 ≤ t_0 - q * t_1 ∧ t_1 ≤ 0 ∧ r_1 * (t_0 - q * t_1) - m * t_1 = P) ∨
        (t_0 - q * t_1 ≤ 0 ∧ 0 ≤ t_1 ∧ m * t_1 - r_1 * (t_0 - q * t_1) = P)) ∧
      (-P ≤ q * t_1 ∧ q * t_1 ≤ P) ∧ (-P ≤ t_0 - q * t_1 ∧ t_0 - q * t_1 ≤ P) := by
  rcases hdet with ⟨a, b, c⟩ | ⟨a, b, c⟩
  · have e1 : 0 ≤ q * t_1 := mul_nonneg hq a
    have e2 : 0 ≤ m * t_1 := mul_nonneg hm a
    have e3 : m * t_1 - r_1 * (t_0 - q * t_1) = P := by rw [← c, ← hdm]; ring
    have e4 : 0 ≤ (r_1 - 1) * (q * t_1 - t_0) := mul_nonneg (by omega) (by omega)
    have e5 : q * t_1 - t_0 ≤ P := by nlinarith
    refine ⟨Or.inr ⟨by omega, a, e3⟩, ⟨by omega, by omega⟩, ⟨by omega, by omega⟩⟩
  · have e1 : 0 ≤ q * (-t_1) := mul_nonneg hq (by omega)
    have e2 : 0 ≤ m * (-t_1) := mul_nonneg hm (by omega)
    have e3 : r_1 * (t_0 - q * t_1) - m * t_1 = P := by rw [← c, ← hdm]; ring
    have e4 : 0 ≤ (r_1 - 1) * (t_0 - q * t_1) := mul_nonneg (by omega) (by nlinarith)
    have e5 : t_0 - q * t_1 ≤ P := by nlinarith
    have e6 : q * (-t_1) = -(q * t_1) := by ring
    refine ⟨Or.inl ⟨by omega, a, e3⟩, ⟨by omega, by omega⟩, ⟨by omega, by omega⟩⟩

/-- The determinant bounds the current coefficient `t_1` by `p`. -/
theorem euclid_coeff_bound (P r_0 r_1 t_0 t_1 : Int) (h1 : 0 < r_1) (h10 : r_1 < r_0)
    (hdet : (0 ≤ t_1 ∧ t_0 ≤ 0 ∧ r_0 * t_1 - r_1 * t_0 = P) ∨
        (t_1 ≤ 0 ∧ 0 ≤ t_0 ∧ r_1 * t_0 - r_0 * t_1 = P)) :
    -P ≤ t_1 ∧ t_1 ≤ P := by
  rcases hdet with ⟨a, b, c⟩ | ⟨a, b, c⟩
  · have e1 : 0 ≤ r_1 * (-t_0) := mul_nonneg (by omega) (by omega)
    have e2 : 0 ≤ (r_0 - 1) * t_1 := mul_nonneg (by omega) a
    constructor
    · nlinarith
    · nlinarith
  · have e1 : 0 ≤ r_1 * t_0 := mul_nonneg (by omega) b
    have e2 : 0 ≤ (r_0 - 1) * (-t_1) := mul_nonneg (by omega) (by omega)
    constructor
    · nlinarith
    · nlinarith

/-- The extended Euclidean loop: under the invariant (Bezout congruences, the
determinant `r_0 * t_1 - r_1 * t_0 = ± p` with alternating signs) it stops and
its result `t` satisfies `t * x ≡ 1 (mod p)` with `0 < |t| < p`. -/
theorem inverseLoop_spec (p x : Nat) (hp : p.Prime) (hp63 : p < 2 ^ 63) :
    ∀ fuel (r_0 r_1 t_0 t_1 : Int), 0 < r_1 → r_1 < r_0 → r_0 ≤ p →
      (p : Int) ∣ t_1 * x - r_1 → (p : Int) ∣ t_0 * x - r_0 →
      ((0 ≤ t_1 ∧ t_0 ≤ 0 ∧ r_0 * t_1 - r_1 * t_0 = p) ∨
        (t_1 ≤ 0 ∧ 0 ≤ t_0 ∧ r_1 * t_0 - r_0 * t_1 = p)) →
      r_1.toNat ≤ fuel →
      ∃ t, inverseLoop fuel r_0 r_1 t_0 t_1 = .ok t ∧ (p : Int) ∣ t * x - 1 ∧
        -(p : Int) < t ∧ t < p ∧ t ≠ 0 := by
  intro fuel
  induction fuel with
  | zero => intro r_0 r_1 t_0 t_1 h1 _ _ _ _ _ hf; omega
  | succ n ih =>
    intro r_0 r_1 t_0 t_1 h1 h10 h0p hd1 hd0 hdet hf
    have hp2 : 2 ≤ p := hp.two_le
    unfold inverseLoop
    rw [if_neg (by omega)]
    have hq : Int.tdiv r_0 r_1 = r_0 / r_1 := Int.tdiv_eq_ediv (by omega) (by omega)
    have hdm := Int.ediv_add_emod r_0 r_1
    have hm0 : 0 ≤ r_0 % r_1 := Int.emod_nonneg _ (by omega)
    have hm1 : r_0 % r_1 < r_1 := Int.emod_lt_of_pos _ h1
    have hq0 : 0 ≤ r_0 / r_1 := Int.ediv_nonneg (by omega) (by omega)
    have hqr : r_0 / r_1 * r_1 ≤ r_0 := Int.ediv_mul_le _ (by omega)
    have hqle : r_0 / r_1 ≤ r_0 := by nlinarith
    have hw1 : wrapInt64 (r_0 / r_1) = r_0 / r_1 := wrapInt64_small _ (by omega) (by omega)
    have hqr0 : 0 ≤ r_0 / r_1 * r_1 := mul_nonneg hq0 (by omega)
    have hw2 : wrapInt64 (r_0 / r_1 * r_1) = r_0 / r_1 * r_1 :=
      wrapInt64_small _ (by omega) (by omega)
    have hnr : r_0 - r_0 / r_1 * r_1 = r_0 % r_1 := by linarith
    have hw3 : wrapInt64 (r_0 % r_1) = r_0 % r_1 := wrapInt64_small _ (by omega) (by omega)
    simp only [hq, hw1, hw2, hnr, hw3]
    have ht1 := euclid_coeff_bound p r_0 r_1 t_0 t_1 h1 h10 hdet
    by_cases hbr : r_0 % r_1 = 0
    · rw [if_pos hbr]
      refine ⟨t_1, rfl, ?_⟩
      -- r_1 divides r_0, hence p; so r_1 = 1
      have hr1dvd : r_1 ∣ r_0 := Int.dvd_of_emod_eq_zero hbr
      have hr1p : r_1 ∣ (p : Int) := by
        rcases hdet with ⟨_, _, c⟩ | ⟨_, _, c⟩
        · rw [← c]
          exact dvd_sub (Dvd.dvd.mul_right hr1dvd _) (dvd_mul_right _ _)
        · rw [← c]
          exact dvd_sub (dvd_mul_right _ _) (Dvd.dvd.mul_right hr1dvd _)
      have hr1 : r_1 = 1 := by
        have hnat : r_1.toNat ∣ p := by
          rw [← Int.natCast_dvd_natCast, Int.toNat_of_nonneg (by omega)]
          exact hr1p
        rcases hp.eq_one_or_self_of_dvd _ hnat with h | h
        · omega
        · omega
      subst hr1
      have hne : ¬ (p : Int) ∣ t_1 * x := by
        intro hc
        have h1' : (p : Int) ∣ 1 := by
          have := dvd_sub hc hd1
          simpa using this
        have := Int.le_of_dvd (by norm_num) h1'
        omega
      refine ⟨hd1, ?_, ?_, ?_⟩
      · rcases lt_or_eq_of_le ht1.1 with h | h
        · exact h
        · exfalso; apply hne; rw [← h]; exact ⟨-(x : Int), by ring⟩
      · rcases lt_or_eq_of_le ht1.2 with h | h
        · exact h
        · exfalso; apply hne; rw [h]; exact Dvd.intro _ rfl
      · intro h0
        apply hne
        rw [h0]; simp
    · rw [if_neg hbr]
      have hmpos : 0 < r_0 % r_1 := by omega
      obtain ⟨hnt, hqt, hntb⟩ :=
        euclid_step_bounds p r_0 r_1 t_0 t_1 (r_0 / r_1) (r_0 % r_1) h1 hq0 hm0 hdm hdet
      have hw4 : wrapInt64 (r_0 / r_1 * t_1) = r_0 / r_1 * t_1 :=
        wrapInt64_small _ (by omega) (by omega)
      have hw5 : wrapInt64 (t_0 - r_0 / r_1 * t_1) = t_0 - r_0 / r_1 * t_1 :=
        wrapInt64_small _ (by omega) (by omega)
      simp only [hw4, hw5]
      apply ih r_1 (r_0 % r_1) t_1 (t_0 - r_0 / r_1 * t_1) hmpos hm1 (by omega) ?_ hd1 ?_
        (by omega)
      · have : (t_0 - r_0 / r_1 * t_1) * x - r_0 % r_1 =
            (t_0 * x - r_0) - r_0 / r_1 * (t_1 * x - r_1) := by
          rw [← hnr]; ring
        rw [this]
        exact dvd_sub hd0 (Dvd.dvd.mul_left hd1 _)
      · rcases hnt with ⟨a, b, c⟩ | ⟨a, b, c⟩
        · left; exact ⟨a, b, c⟩
        · right; exact ⟨a, b, c⟩

/-- For a prime `p < 2^63` and `1 ≤ x < p` the inverse is found: a value in
`[1, p-1]` whose product with `x` is `1` modulo `p`. -/
theorem MultiplicativeInverse_spec (p x : Nat) (hp : p.Prime) (hp63 : p < 2 ^ 63)
    (hx1 : 1 ≤ x) (hx : x < p) (fuel : Nat) (hf : x ≤ fuel) :
    ∃ inv, MultiplicativeInverse fuel x p = .ok inv ∧ 1 ≤ inv ∧ inv < p ∧
      x * inv % p = 1 := by
  have hp2 : 2 ≤ p := hp.two_le
  obtain ⟨t, ht, hdvd, hlo, hhi, hne⟩ :=
    inverseLoop_spec p x hp hp63 fuel p x 0 1 (by omega) (by omega) (le_refl _)
      (by simp) (by simp) (Or.inl ⟨by omega, le_refl _, by ring⟩) (by omega)
  unfold MultiplicativeInverse
  rw [toInt64_small p hp63, toInt64_small x (by omega), ht]
  simp only
  have key : ∀ inv : Nat, (p : Int) ∣ (inv : Int) * x - 1 → x * inv % p = 1 := by
    intro inv hd
    have h1 : ((inv * x : Nat) : Int) % (p : Int) = 1 % (p : Int) := by
      rw [Int.emod_eq_emod_iff_emod_sub_eq_zero]
      push_cast
      exact Int.emod_eq_zero_of_dvd hd
    rw [Int.emod_eq_of_lt (a := 1) (by omega) (by omega)] at h1
    have h2 : ((inv * x % p : Nat) : Int) = 1 := by rw [Int.natCast_mod]; exact h1
    rw [Nat.mul_comm]
    exact_mod_cast h2
  by_cases hpos : t > 0
  · rw [if_pos hpos, toUint64_small t (by omega) (by omega)]
    refine ⟨t.toNat, rfl, by omega, by omega, key _ ?_⟩
    rw [Int.toNat_of_nonneg (by omega)]
    exact hdvd
  · rw [if_neg hpos, wrapInt64_small _ (by omega) (by omega),
      toUint64_small _ (by omega) (by omega)]
    refine ⟨((p : Int) + t).toNat, rfl, by omega, by omega, key _ ?_⟩
    rw [Int.toNat_of_nonneg (by omega)]
    have : ((p : Int) + t) * x - 1 = (p : Int) * x + (t * x - 1) := by ring
    rw [this]
    exact dvd_add (dvd_mul_right _ _) hdvd

/-- For operands below a nonzero `p < 2^63`, `SubField` returns after at most
one recursive call, with no wrap-around. -/
theorem SubField_eq (a b p : Nat) (hp1 : 1 ≤ p) (hp63 : p < 2 ^ 63) (ha : a < p) (hb : b < p)
    (fuel : Nat) (hf : 2 ≤ fuel) :
    SubField fuel a b p = .ok ((a + p - b) % p) := by
  obtain ⟨n, rfl⟩ : ∃ n, fuel = n + 2 := ⟨fuel - 2, by omega⟩
  unfold SubField
  by_cases h : a > b
  · rw [if_pos h, sub64_small a b (by omega) (by omega), mod64_ok _ _ (by omega)]
    congr 1
    have : a + p - b = (a - b) + p := by omega
    rw [this, Nat.add_mod_right]
  · rw [if_neg h, add64_small a p (by omega)]
    unfold SubField
    rw [if_pos (by omega), sub64_small (a + p) b (by omega) (by omega), mod64_ok _ _ (by omega)]

/-- The loop of `Pow` multiplies the accumulator by `x` once per iteration. -/
theorem powLoop_eq (p x : Nat) (hp63 : p < 2 ^ 63) (hx1 : 1 ≤ x) (hx : x < p)
    (fuel : Nat) (hf : x ≤ fuel) :
    ∀ n res, res < p → powLoop fuel x p n res = .ok (res * x ^ n % p) := by
  intro n
  induction n with
  | zero =>
    intro res hres
    unfold powLoop
    rw [pow_zero, Nat.mul_one, Nat.mod_eq_of_lt hres]
  | succ n ih =>
    intro res hres
    unfold powLoop
    rw [MultiplyNonOverflow_eq p hp63 fuel res x hres hx1 hx hf]
    simp only
    rw [ih _ (Nat.mod_lt _ (by omega))]
    congr 1
    rw [Nat.mod_mul_mod, pow_succ']
    ring_nf

/-- For a nonzero base below `p`, `Pow` returns the modular power. -/
theorem Pow_eq (p x y : Nat) (hp2 : 2 ≤ p) (hp63 : p < 2 ^ 63) (hx1 : 1 ≤ x) (hx : x < p)
    (fuel : Nat) (hf : x ≤ fuel) :
    Pow fuel x y p = .ok (x ^ y % p) := by
  unfold Pow
  by_cases hy : y = 0
  · subst hy
    rw [if_pos rfl, pow_zero, Nat.mod_eq_of_lt (by omega)]
  · rw [if_neg hy, powLoop_eq p x hp63 hx1 hx fuel hf y 1 (by omega), Nat.one_mul]

theorem vandermondeLoop_eq (p x : Nat) (hp2 : 2 ≤ p) (hp63 : p < 2 ^ 63) (hx1 : 1 ≤ x)
    (hx : x < p) (fuel : Nat) (hf : x ≤ fuel) :
    ∀ n i, vandermondeLoop fuel x p n i =
      .ok ((List.range' i n).map (fun j => x ^ j % p)) := by
  intro n
  induction n with
  | zero => intro i; rfl
  | succ n ih =>
    intro i
    unfold vandermondeLoop
    rw [Pow_eq p x i hp2 hp63 hx1 hx fuel hf]
    simp only
    rw [ih (i + 1)]
    rfl

/-- For a nonzero point below `p`, `GenerateVandermonde` returns the list of
the first `k` modular powers. -/
theorem GenerateVandermonde_eq (p x k : Nat) (hp2 : 2 ≤ p) (hp63 : p < 2 ^ 63) (hx1 : 1 ≤ x)
    (hx : x < p) (fuel : Nat) (hf : x ≤ fuel) :
    GenerateVandermonde fuel x k p = .ok ((List.range k).map (fun j => x ^ j % p)) := by
  unfold GenerateVandermonde
  rw [vandermondeLoop_eq p x hp2 hp63 hx1 hx fuel hf k 0, List.range_eq_range']

theorem natCast_ne_zero_of_lt (p a : Nat) (h1 : 1 ≤ a) (h2 : a < p) : (a : ZMod p) ≠ 0 := by
  intro h
  rw [ZMod.natCast_zmod_eq_zero_iff_dvd] at h
  have := Nat.le_of_dvd (by omega) h
  omega

theorem natCast_inj_of_lt (p a b : Nat) (ha : a < p) (hb : b < p)
    (h : (a : ZMod p) = (b : ZMod p)) : a = b := by
  rw [ZMod.natCast_eq_natCast_iff'] at h
  rwa [Nat.mod_eq_of_lt ha, Nat.mod_eq_of_lt hb] at h

theorem getD_eq_getElem (pts : List Nat) (m : Nat) (hm : m < pts.length) :
    pts.getD m 0 = pts[m] := by
  simp [List.getD, List.getElem?_eq_getElem hm]

/-- The inner loop multiplies the running product by
`points[m] * (points[m] - points[i])⁻¹` for every remaining `m ≠ i`. -/
theorem inverseInner_spec (p : Nat) [Fact p.Prime] (hp63 : p < 2 ^ 63) (pts : List Nat)
    (hlt : ∀ x ∈ pts, x < p) (hpos : ∀ x ∈ pts, 1 ≤ x) (hnd : pts.Nodup)
    (fuel : Nat) (hf : p ≤ fuel) (i : Nat) (hi : i < pts.length) :
    ∀ n m acc, m + n = pts.length → acc < p → (acc : ZMod p) ≠ 0 →
      ∃ r, inverseInner fuel pts p i n m acc = .ok r ∧ r < p ∧ (r : ZMod p) ≠ 0 ∧
        (r : ZMod p) = acc * (((List.range' m n).filter (fun j => j ≠ i)).map
          (fun j => (pts.getD j 0 : ZMod p) *
            ((pts.getD j 0 : ZMod p) - (pts.getD i 0 : ZMod p))⁻¹)).prod := by
  have hp : p.Prime := Fact.out
  have hp2 : 2 ≤ p := hp.two_le
  intro n
  induction n with
  | zero =>
    intro m acc _ hacc hne
    exact ⟨acc, rfl, hacc, hne, by simp⟩
  | succ n ih =>
    intro m acc hmn hacc hne
    have hm : m < pts.length := by omega
    unfold inverseInner
    by_cases hmi : m = i
    · rw [if_neg (by simpa using hmi)]
      obtain ⟨r, hr, hrlt, hrne, hreq⟩ := ih (m + 1) acc (by omega) hacc hne
      refine ⟨r, hr, hrlt, hrne, ?_⟩
      rw [hreq, List.range'_succ, List.filter_cons_of_neg (by simpa using hmi)]
    · rw [if_pos hmi]
      have hxm : pts.getD m 0 ∈ pts := by rw [getD_eq_getElem pts m hm]; exact List.getElem_mem _
      have hxi : pts.getD i 0 ∈ pts := by rw [getD_eq_getElem pts i hi]; exact List.getElem_mem _
      have hxne : pts.getD m 0 ≠ pts.getD i 0 := by
        rw [getD_eq_getElem pts m hm, getD_eq_getElem pts i hi]
        intro h
        exact hmi ((List.Nodup.getElem_inj_iff hnd).1 h)
      have hxmlt := hlt _ hxm
      have hxilt := hlt _ hxi
      have hxmpos := hpos _ hxm
      rw [SubField_eq _ _ p (by omega) hp63 hxmlt hxilt fuel (by omega)]
      simp only
      -- the difference is a nonzero residue
      have hdlt : (pts.getD m 0 + p - pts.getD i 0) % p < p := Nat.mod_lt _ (by omega)
      have hdcast : (((pts.getD m 0 + p - pts.getD i 0) % p : Nat) : ZMod p) =
          (pts.getD m 0 : ZMod p) - (pts.getD i 0 : ZMod p) := by
        rw [ZMod.natCast_mod, Nat.cast_sub (by omega), Nat.cast_add, ZMod.natCast_self,
          add_zero]
      have hdne : (pts.getD m 0 : ZMod p) - (pts.getD i 0 : ZMod p) ≠ 0 := by
        intro h
        exact hxne (natCast_inj_of_lt p _ _ hxmlt hxilt (sub_eq_zero.1 h))
      have hd1 : 1 ≤ (pts.getD m 0 + p - pts.getD i 0) % p := by
        rcases Nat.eq_zero_or_pos ((pts.getD m 0 + p - pts.getD i 0) % p) with h | h
        · rw [h] at hdcast
          exact absurd hdcast.symm (by simpa using hdne)
        · exact h
      obtain ⟨inv, hinv, hinv1, hinvlt, hinvmul⟩ :=
        MultiplicativeInverse_spec p _ hp hp63 hd1 hdlt fuel (by omega)
      rw [hinv]
      simp only
      have hinvcast : (inv : ZMod p) =
          ((pts.getD m 0 : ZMod p) - (pts.getD i 0 : ZMod p))⁻¹ := by
        have h1 : (((pts.getD m 0 + p - pts.getD i 0) % p * inv % p : Nat) : ZMod p) =
            ((1 : Nat) : ZMod p) := by rw [hinvmul]
        rw [ZMod.natCast_mod, Nat.cast_mul, hdcast, Nat.cast_one] at h1
        exact eq_inv_of_mul_eq_one_right h1
      rw [MultiplyNonOverflow_eq p hp63 fuel _ inv hxmlt hinv1 hinvlt (by omega)]
      simp only
      have hacc1 : 1 ≤ acc := by
        rcases Nat.eq_zero_or_pos acc with h | h
        · rw [h] at hne; simp at hne
        · exact h
      rw [MultiplyNonOverflow_eq p hp63 fuel _ acc (Nat.mod_lt _ (by omega)) hacc1 hacc (by omega)]
      simp only
      have hrcast : ((pts.getD m 0 * inv % p * acc % p : Nat) : ZMod p) =
          acc * ((pts.getD m 0 : ZMod p) *
            ((pts.getD m 0 : ZMod p) - (pts.getD i 0 : ZMod p))⁻¹) := by
        rw [ZMod.natCast_mod, Nat.cast_mul, ZMod.natCast_mod, Nat.cast_mul, hinvcast]
        ring
      have hrne : ((pts.getD m 0 * inv % p * acc % p : Nat) : ZMod p) ≠ 0 := by
        rw [hrcast]
        exact mul_ne_zero hne (mul_ne_zero (natCast_ne_zero_of_lt p _ hxmpos hxmlt)
          (inv_ne_zero hdne))
      obtain ⟨r, hr, hrlt, hrne', hreq⟩ :=
        ih (m + 1) _ (by omega) (Nat.mod_lt _ (by omega)) hrne
      refine ⟨r, hr, hrlt, hrne', ?_⟩
      rw [hreq, hrcast, List.range'_succ, List.filter_cons_of_pos (by simpa using hmi),
        List.map_cons, List.prod_cons]
      ring

theorem filter_range_prod (p : Nat) (pts : List Nat) (i : Nat) :
    (((List.range' 0 pts.length).filter (fun j => j ≠ i)).map
      (fun j => (pts.getD j 0 : ZMod p) *
        ((pts.getD j 0 : ZMod p) - (pts.getD i 0 : ZMod p))⁻¹)).prod =
      lagrangeCoeff p pts i := by
  unfold lagrangeCoeff
  rw [← List.range_eq_range', ← List.prod_toFinset _ ((List.nodup_range _).filter _)]
  congr 1
  ext m
  simp

/-- The outer loop produces, for each index in order, a residue below `p`
whose class is the Lagrange coefficient at `0`. -/
theorem inverseOuter_spec (p : Nat) [Fact p.Prime] (hp63 : p < 2 ^ 63) (pts : List Nat)
    (hlt : ∀ x ∈ pts, x < p) (hpos : ∀ x ∈ pts, 1 ≤ x) (hnd : pts.Nodup)
    (fuel : Nat) (hf : p ≤ fuel) :
    ∀ n i, i + n = pts.length →
      ∃ ws, inverseOuter fuel pts p n i = .ok ws ∧ ws.length = n ∧
        ∀ j, j < n → ws.getD j 0 < p ∧ (ws.getD j 0 : ZMod p) = lagrangeCoeff p pts (i + j) := by
  have hp : p.Prime := Fact.out
  have hp2 : 2 ≤ p := hp.two_le
  intro n
  induction n with
  | zero =>
    intro i _
    exact ⟨[], rfl, rfl, fun j hj => absurd hj (Nat.not_lt_zero j)⟩
  | succ n ih =>
    intro i hin
    unfold inverseOuter
    obtain ⟨w, hw, hwlt, _, hweq⟩ :=
      inverseInner_spec p hp63 pts hlt hpos hnd fuel hf i (by omega) pts.length 0 1
        (by omega) (by omega) (by simp)
    rw [hw]
    simp only
    obtain ⟨ws, hws, hlen, hall⟩ := ih (i + 1) (by omega)
    rw [hws]
    refine ⟨w :: ws, rfl, by simp [hlen], ?_⟩
    intro j hj
    cases j with
    | zero =>
      refine ⟨by simpa using hwlt, ?_⟩
      rw [Nat.cast_one, one_mul, filter_range_prod] at hweq
      simpa using hweq
    | succ j =>
      have := hall j (by omega)
      have e : i + (j + 1) = i + 1 + j := by omega
      rw [e]
      simpa using this

/-- For pairwise-distinct nonzero points below a prime `p < 2^63`,
`GenerateVandermondeInverse` returns one residue per point, in input order,
each the Lagrange coefficient at `0`. -/
theorem GenerateVandermondeInverse_spec (p : Nat) (hp : p.Prime) (hp63 : p < 2 ^ 63)
    (pts : List Nat) (hlt : ∀ x ∈ pts, x < p) (hpos : ∀ x ∈ pts, 1 ≤ x) (hnd : pts.Nodup)
    (fuel : Nat) (hf : p ≤ fuel) :
    ∃ ws, GenerateVandermondeInverse fuel pts p = .ok ws ∧ ws.length = pts.length ∧
      ∀ i, i < pts.length → ws.getD i 0 < p ∧ (ws.getD i 0 : ZMod p) = lagrangeCoeff p pts i := by
  haveI : Fact p.Prime := ⟨hp⟩
  unfold GenerateVandermondeInverse
  obtain ⟨ws, hws, hlen, hall⟩ :=
    inverseOuter_spec p hp63 pts hlt hpos hnd fuel hf pts.length 0 (by omega)
  refine ⟨ws, hws, hlen, fun i hi => ?_⟩
  have := hall i hi
  rwa [Nat.zero_add] at this

/-- The specification's coefficient is the value at `0` of the Lagrange basis
polynomial of the point of index `i`. -/
theorem lagrangeCoeff_eq_eval_basis (p : Nat) [Fact p.Prime] (pts : List Nat)
    (i : Fin pts.length) :
    lagrangeCoeff p pts i =
      (Lagrange.basis Finset.univ (fun j : Fin pts.length => (pts.getD j 0 : ZMod p)) i).eval 0 := by
  unfold lagrangeCoeff Lagrange.basis
  rw [Polynomial.eval_prod, Finset.prod_filter, ← Finset.filter_ne' Finset.univ i,
    Finset.prod_filter,
    ← Fin.prod_univ_eq_prod_range (fun m => if m ≠ (i : Nat) then
      (pts.getD m 0 : ZMod p) * ((pts.getD m 0 : ZMod p) - (pts.getD i 0 : ZMod p))⁻¹ else 1)]
  apply Finset.prod_congr rfl
  intro j _
  by_cases hji : j = i
  · subst hji
    simp
  · have hne : (j : Nat) ≠ (i : Nat) := fun h => hji (Fin.ext h)
    rw [if_pos hne, if_pos hji]
    unfold Lagrange.basisDivisor
    simp only [Polynomial.eval_mul, Polynomial.eval_C, Polynomial.eval_sub, Polynomial.eval_X,
      zero_sub]
    rw [← neg_sub (pts.getD j 0 : ZMod p) (pts.getD i 0 : ZMod p), inv_neg]
    ring

/-- Lagrange reconstruction at `0`: the coefficients combine the values of any
polynomial of degree below the number of points into its value at `0`. -/
theorem lagrange_at_zero (p : Nat) [Fact p.Prime] (pts : List Nat) (hlt : ∀ x ∈ pts, x < p)
    (hnd : pts.Nodup) (f : Polynomial (ZMod p)) (hdeg : f.degree < pts.length) :
    ∑ i ∈ Finset.range pts.length, lagrangeCoeff p pts i * f.eval (pts.getD i 0 : ZMod p) =
      f.eval 0 := by
  have hinj : Set.InjOn (fun j : Fin pts.length => (pts.getD j 0 : ZMod p))
      (Finset.univ : Finset (Fin pts.length)) := by
    intro a _ b _ hab
    simp only at hab
    rw [getD_eq_getElem pts a a.2, getD_eq_getElem pts b b.2] at hab
    have := natCast_inj_of_lt p _ _ (hlt _ (List.getElem_mem _)) (hlt _ (List.getElem_mem _)) hab
    exact Fin.ext ((List.Nodup.getElem_inj_iff hnd).1 this)
  have hcard : f.degree < (Finset.univ : Finset (Fin pts.length)).card := by
    simpa using hdeg
  have hf := Lagrange.eq_interpolate hinj hcard
  rw [← Fin.sum_univ_eq_sum_range
    (fun i => lagrangeCoeff p pts i * f.eval (pts.getD i 0 : ZMod p))]
  conv_rhs => rw [hf]
  rw [Lagrange.interpolate_apply, Polynomial.eval_finset_sum]
  apply Finset.sum_congr rfl
  intro i _
  rw [Polynomial.eval_mul, Polynomial.eval_C, lagrangeCoeff_eq_eval_basis, mul_comm]

theorem weightedSum_eq_sum (a b : List Nat) :
    weightedSum a b = ∑ i ∈ Finset.range a.length, a.getD i 0 * b.getD i 0 := by
  unfold weightedSum
  induction a generalizing b with
  | nil => simp
  | cons x a ih =>
    cases b with
    | nil => simp
    | cons y b =>
      rw [List.zipWith_cons_cons, List.sum_cons, ih b, List.length_cons,
        Finset.sum_range_succ']
      simp [Nat.add_comm]

theorem getD_map_range (g : Nat → Nat) (k m : Nat) (hm : m < k) :
    ((List.range k).map g).getD m 0 = g m := by
  simp [List.getD, List.getElem?_map, List.getElem?_range hm]

theorem eval_coeffPoly (p k : Nat) (a : Nat → ZMod p) (x : ZMod p) :
    (∑ m ∈ Finset.range k, Polynomial.C (a m) * Polynomial.X ^ m).eval x =
      ∑ m ∈ Finset.range k, a m * x ^ m := by
  simp [Polynomial.eval_finset_sum]

theorem degree_coeffPoly (p k : Nat) [Fact p.Prime] (a : Nat → ZMod p) :
    (∑ m ∈ Finset.range k, Polynomial.C (a m) * Polynomial.X ^ m).degree < (k : WithBot Nat) := by
  rw [← Fin.sum_univ_eq_sum_range (fun m => Polynomial.C (a m) * Polynomial.X ^ m) k]
  exact Polynomial.degree_sum_fin_lt (fun i : Fin k => a i)

theorem eval_zero_coeffPoly (p k : Nat) (hk : 1 ≤ k) (a : Nat → ZMod p) :
    (∑ m ∈ Finset.range k, Polynomial.C (a m) * Polynomial.X ^ m).eval 0 = a 0 := by
  rw [eval_coeffPoly]
  obtain ⟨n, rfl⟩ : ∃ n, k = n + 1 := ⟨k - 1, by omega⟩
  rw [Finset.sum_range_succ']
  simp

/-- Reconstruction from the values of a polynomial with fewer coefficients
than points: the result is the residue of the constant coefficient. -/
theorem reconstruct_spec (p : Nat) (hp : p.Prime) (hp63 : p < 2 ^ 63) (pts shares : List Nat)
    (hlt : ∀ x ∈ pts, x < p) (hpos : ∀ x ∈ pts, 1 ≤ x) (hnd : pts.Nodup)
    (hk : 1 ≤ pts.length) (a : Nat → ZMod p)
    (hsh : ∀ i, i < pts.length → (shares.getD i 0 : ZMod p) =
      ∑ m ∈ Finset.range pts.length, a m * (pts.getD i 0 : ZMod p) ^ m)
    (fuel : Nat) (hf : p ≤ fuel) :
    ∃ r, reconstruct fuel pts shares p = .ok r ∧ r < p ∧ (r : ZMod p) = a 0 := by
  haveI : Fact p.Prime := ⟨hp⟩
  obtain ⟨ws, hws, hlen, hall⟩ :=
    GenerateVandermondeInverse_spec p hp hp63 pts hlt hpos hnd fuel hf
  unfold reconstruct
  rw [hws]
  refine ⟨_, rfl, Nat.mod_lt _ (by have := hp.two_le; omega), ?_⟩
  rw [ZMod.natCast_mod, weightedSum_eq_sum, hlen, Nat.cast_sum]
  rw [← eval_zero_coeffPoly p pts.length hk a,
    ← lagrange_at_zero p pts hlt hnd _ (degree_coeffPoly p pts.length a)]
  apply Finset.sum_congr rfl
  intro i hi
  rw [Finset.mem_range] at hi
  rw [Nat.cast_mul, (hall i hi).2, hsh i hi, eval_coeffPoly]

theorem getD_map_of_lt {α : Type} (g : α → Nat) (l : List α) (d : α) (i : Nat)
    (hi : i < l.length) : (l.map g).getD i 0 = g (l.getD i d) := by
  simp [List.getD, List.getElem?_map, List.getElem?_eq_getElem hi]

theorem getD_mem_of_lt (l : List Nat) (i : Nat) (hi : i < l.length) : l.getD i 0 ∈ l := by
  rw [getD_eq_getElem l i hi]
  exact List.getElem_mem _

/-- The class modulo `p` of a share: the dealer polynomial at the point. -/
theorem share_cast (p k x : Nat) (cs : List Nat) (hc : cs.length = k) :
    ((weightedSum cs ((List.range k).map (fun j => x ^ j % p)) % p : Nat) : ZMod p) =
      ∑ m ∈ Finset.range k, (cs.getD m 0 : ZMod p) * (x : ZMod p) ^ m := by
  rw [ZMod.natCast_mod, weightedSum_eq_sum, hc, Nat.cast_sum]
  apply Finset.sum_congr rfl
  intro m hm
  rw [Finset.mem_range] at hm
  rw [getD_map_range _ k m hm, Nat.cast_mul, ZMod.natCast_mod, Nat.cast_pow]

theorem sharesAt_eq (p k : Nat) (hp2 : 2 ≤ p) (hp63 : p < 2 ^ 63) (cs : List Nat)
    (fuel : Nat) (hf : p ≤ fuel) :
    ∀ xs : List Nat, (∀ x ∈ xs, 1 ≤ x ∧ x < p) →
      sharesAt fuel cs k p xs =
        .ok (xs.map (fun x => weightedSum cs ((List.range k).map (fun j => x ^ j % p)) % p)) := by
  intro xs
  induction xs with
  | nil => intro _; rfl
  | cons x xs ih =>
    intro h
    have hx := h x (List.mem_cons_self _ _)
    unfold sharesAt shareAt
    rw [GenerateVandermonde_eq p x k hp2 hp63 hx.1 hx.2 fuel (by omega)]
    simp only
    rw [ih (fun y hy => h y (List.mem_cons_of_mem _ hy))]
    rfl

theorem dealers_sum (k : Nat) (v : List Nat) :
    ∀ dealers : List (List Nat), (∀ c ∈ dealers, c.length = k) →
      (dealers.map (fun c => weightedSum c v)).sum =
        ∑ m ∈ Finset.range k, (dealers.map (fun c => c.getD m 0)).sum * v.getD m 0 := by
  intro dealers
  induction dealers with
  | nil => intro _; simp
  | cons c cs ih =>
    intro h
    rw [List.map_cons, List.sum_cons, ih (fun d hd => h d (List.mem_cons_of_mem _ hd)),
      weightedSum_eq_sum, h c (List.mem_cons_self _ _), ← Finset.sum_add_distrib]
    apply Finset.sum_congr rfl
    intro m _
    rw [List.map_cons, List.sum_cons, Nat.add_mul]

/-- The class modulo `p` of a combined share: the sum of the dealer
polynomials at the point. -/
theorem combined_cast (p k x : Nat) (dealers : List (List Nat))
    (hd : ∀ c ∈ dealers, c.length = k) :
    (((dealers.map (fun c => weightedSum c ((List.range k).map (fun j => x ^ j % p)))).sum % p
        : Nat) : ZMod p) =
      ∑ m ∈ Finset.range k,
        (((dealers.map (fun c => c.getD m 0)).sum : Nat) : ZMod p) * (x : ZMod p) ^ m := by
  rw [ZMod.natCast_mod, dealers_sum k _ dealers hd, Nat.cast_sum]
  apply Finset.sum_congr rfl
  intro m hm
  rw [Finset.mem_range] at hm
  rw [getD_map_range _ k m hm, Nat.cast_mul, ZMod.natCast_mod, Nat.cast_pow]

theorem combinedShares_eq (p k : Nat) (hp2 : 2 ≤ p) (hp63 : p < 2 ^ 63)
    (dealers : List (List Nat)) (fuel : Nat) (hf : p ≤ fuel) :
    ∀ xs : List Nat, (∀ x ∈ xs, 1 ≤ x ∧ x < p) →
      combinedShares fuel dealers k p xs =
        .ok (xs.map (fun x => (dealers.map (fun c =>
          weightedSum c ((List.range k).map (fun j => x ^ j % p)))).sum % p)) := by
  intro xs
  induction xs with
  | nil => intro _; rfl
  | cons x xs ih =>
    intro h
    have hx := h x (List.mem_cons_self _ _)
    unfold combinedShares combinedShareAt
    rw [GenerateVandermonde_eq p x k hp2 hp63 hx.1 hx.2 fuel (by omega)]
    simp only
    rw [ih (fun y hy => h y (List.mem_cons_of_mem _ hy))]
    rfl

/-- C1. For a prime `p < 2^63`, `k ≥ 1` pairwise-distinct nonzero points below
`p` and `k` coefficients below `p`: the shares `f(x_i) = (Σ c_m * V(x_i)[m]) mod p`
are produced, and the weights of `GenerateVandermondeInverse` applied to them
give back exactly `c_0`. -/
theorem reconstruct_recovers_constant_term (p k : Nat) (hp : p.Prime) (hp63 : p < 2 ^ 63)
    (hk : 1 ≤ k) (xs cs : List Nat) (hxlen : xs.length = k) (hclen : cs.length = k)
    (hnd : xs.Nodup) (hx : ∀ x ∈ xs, 1 ≤ x ∧ x < p) (hc : ∀ c ∈ cs, c < p)
    (fuel : Nat) (hf : p ≤ fuel) :
    ∃ shares, sharesAt fuel cs k p xs = .ok shares ∧ shares.length = k ∧
      reconstruct fuel xs shares p = .ok (cs.getD 0 0) := by
  refine ⟨_, sharesAt_eq p k hp.two_le hp63 cs fuel hf xs hx, by simp [hxlen], ?_⟩
  obtain ⟨r, hr, hrlt, hrcast⟩ :=
    reconstruct_spec p hp hp63 xs
      (xs.map (fun x => weightedSum cs ((List.range k).map (fun j => x ^ j % p)) % p))
      (fun x h => (hx x h).2) (fun x h => (hx x h).1) hnd (by omega)
      (fun m => (cs.getD m 0 : ZMod p))
      (fun i hi => by
        rw [getD_map_of_lt _ xs 0 i hi, hxlen]
        exact share_cast p k _ cs hclen)
      fuel hf
  rw [hr]
  congr 1
  exact natCast_inj_of_lt p _ _ hrlt (hc _ (getD_mem_of_lt cs 0 (by omega))) hrcast

theorem reconstruct_recovers_constant_term_witness :
    ∃ shares, sharesAt 7 [4, 2] 2 7 [3, 5] = .ok shares ∧ shares.length = 2 ∧
      reconstruct 7 [3, 5] shares 7 = .ok ([4, 2].getD 0 0) :=
  reconstruct_recovers_constant_term 7 2 (by norm_num) (by norm_num) (by norm_num)
    [3, 5] [4, 2] rfl rfl (by decide) (by decide) (by decide) 7 (le_refl _)

/-- C2. End-to-end threshold correctness with scalar secrets: for a prime
`p < 2^63`, `N ≥ k ≥ 1`, `N` pairwise-distinct nonzero points and `N` dealer
vectors of `k` scalars, the combined shares of all parties are produced, and
every choice of `k` distinct parties reconstructs the sum of the dealers'
first coefficients modulo `p` (so any two choices reconstruct the same value). -/
theorem threshold_reconstruction (p k N : Nat) (hp : p.Prime) (hp63 : p < 2 ^ 63)
    (hk : 1 ≤ k) (_hkN : k ≤ N) (xs : List Nat) (dealers : List (List Nat))
    (hxlen : xs.length = N) (_hdlen : dealers.length = N) (hnd : xs.Nodup)
    (hx : ∀ x ∈ xs, 1 ≤ x ∧ x < p) (hd : ∀ c ∈ dealers, c.length = k ∧ ∀ e ∈ c, e < p)
    (fuel : Nat) (hf : p ≤ fuel) :
    ∃ all, combinedShares fuel dealers k p xs = .ok all ∧ all.length = N ∧
      ∀ js : List Nat, js.length = k → js.Nodup → (∀ j ∈ js, j < N) →
        reconstruct fuel (js.map (fun j => xs.getD j 0)) (js.map (fun j => all.getD j 0)) p =
          .ok ((dealers.map (fun c => c.getD 0 0)).sum % p) := by
  refine ⟨_, combinedShares_eq p k hp.two_le hp63 dealers fuel hf xs hx, by simp [hxlen], ?_⟩
  intro js hjlen hjnd hjlt
  have hmem : ∀ x ∈ js.map (fun j => xs.getD j 0), 1 ≤ x ∧ x < p := by
    intro x hxm
    obtain ⟨j, hj, rfl⟩ := List.mem_map.1 hxm
    exact hx _ (getD_mem_of_lt xs j (by rw [hxlen]; exact hjlt j hj))
  have hnd' : (js.map (fun j => xs.getD j 0)).Nodup := by
    apply List.Nodup.map_on _ hjnd
    intro a ha b hb hab
    have ha' : a < xs.length := by rw [hxlen]; exact hjlt a ha
    have hb' : b < xs.length := by rw [hxlen]; exact hjlt b hb
    rw [getD_eq_getElem xs a ha', getD_eq_getElem xs b hb'] at hab
    exact (List.Nodup.getElem_inj_iff hnd).1 hab
  have hlen' : (js.map (fun j => xs.getD j 0)).length = k := by simp [hjlen]
  obtain ⟨r, hr, hrlt, hrcast⟩ :=
    reconstruct_spec p hp hp63 (js.map (fun j => xs.getD j 0))
      (js.map (fun j => (xs.map (fun x => (dealers.map (fun c =>
          weightedSum c ((List.range k).map (fun j => x ^ j % p)))).sum % p)).getD j 0))
      (fun x h => (hmem x h).2) (fun x h => (hmem x h).1) hnd' (by omega)
      (fun m => (((dealers.map (fun c => c.getD m 0)).sum : Nat) : ZMod p))
      (fun i hi => by
        have hi' : i < js.length := by simpa using hi
        have hji : js.getD i 0 < xs.length := by
          rw [hxlen]; exact hjlt _ (getD_mem_of_lt js i hi')
        rw [getD_map_of_lt _ js 0 i hi', getD_map_of_lt _ js 0 i hi',
          getD_map_of_lt _ xs 0 _ hji, hlen']
        exact combined_cast p k _ dealers (fun c hc => (hd c hc).1))
      fuel hf
  rw [hr]
  congr 1
  have h := (ZMod.natCast_eq_natCast_iff' _ _ _).1 hrcast
  rwa [Nat.mod_eq_of_lt hrlt] at h

theorem threshold_reconstruction_witness :
    ∃ all, combinedShares 7 [[1, 2], [3, 4], [5, 6]] 2 7 [1, 2, 3] = .ok all ∧ all.length = 3 ∧
      ∀ js : List Nat, js.length = 2 → js.Nodup → (∀ j ∈ js, j < 3) →
        reconstruct 7 (js.map (fun j => [1, 2, 3].getD j 0)) (js.map (fun j => all.getD j 0)) 7 =
          .ok (([[1, 2], [3, 4], [5, 6]].map (fun c => c.getD 0 0)).sum % 7) :=
  threshold_reconstruction 7 2 3 (by norm_num) (by norm_num) (by norm_num) (by norm_num)
    [1, 2, 3] [[1, 2], [3, 4], [5, 6]] rfl rfl (by decide) (by decide) (by decide) 7 (le_refl _)

/-- With both operands zero the even branch recurses on the same arguments:
no amount of fuel yields a value. -/
theorem MultiplyNonOverflow_zero_zero (p : Nat) (hp : 1 ≤ p) :
    ∀ fuel, MultiplyNonOverflow fuel 0 0 p = .error .outOfFuel := by
  intro fuel
  induction fuel with
  | zero => rfl
  | succ n ih =>
    unfold MultiplyNonOverflow
    rw [if_neg (by omega), if_neg (by omega), if_pos (by rfl), mod64_ok _ _ (by omega)]
    simp only [mul64, Nat.mul_zero, Nat.zero_mod, Nat.zero_div]
    exact ih

/-- C3 (failing input). `MultiplyNonOverflow(0, 0, 7)` never returns: both
operands are below the prime `7`, yet no fuel yields the product `0`. -/
theorem MultiplyNonOverflow_zero_zero_seven :
    ∀ fuel, MultiplyNonOverflow fuel 0 0 7 = .error .outOfFuel ∧
      MultiplyNonOverflow fuel 0 0 7 ≠ .ok (0 * 0 % 7) := by
  intro fuel
  rw [MultiplyNonOverflow_zero_zero 7 (by norm_num) fuel]
  exact ⟨rfl, by simp⟩

/-- C4. For a prime `p < 2^63` and `1 ≤ x < p`, `MultiplicativeInverse(x, p)`
returns a value whose product with `x` under `MultiplyNonOverflow` is `1`. -/
theorem mul_inverse_eq_one (p x : Nat) (hp : p.Prime) (hp63 : p < 2 ^ 63)
    (hx1 : 1 ≤ x) (hx : x < p) (fuel : Nat) (hf : p ≤ fuel) :
    ∃ inv, MultiplicativeInverse fuel x p = .ok inv ∧
      MultiplyNonOverflow fuel x inv p = .ok 1 := by
  obtain ⟨inv, hinv, h1, hlt, hmul⟩ :=
    MultiplicativeInverse_spec p x hp hp63 hx1 hx fuel (by omega)
  refine ⟨inv, hinv, ?_⟩
  rw [MultiplyNonOverflow_eq p hp63 fuel x inv hx h1 hlt (by omega), hmul]

theorem mul_inverse_eq_one_witness :
    ∃ inv, MultiplicativeInverse 7 3 7 = .ok inv ∧ MultiplyNonOverflow 7 3 inv 7 = .ok 1 :=
  mul_inverse_eq_one 7 3 (by norm_num) (by norm_num) (by norm_num) (by norm_num) 7 (le_refl _)

theorem take_set_succ (l : List Nat) (i v : Nat) (h : i < l.length) :
    (l.set i v).take (i + 1) = l.take i ++ [v] := by
  induction l generalizing i with
  | nil => simp at h
  | cons a l ih =>
    cases i with
    | zero => simp
    | succ i => simp [ih i (by simpa using h)]

/-- Filling an allocated slice entry by entry gives the entries already
written followed by the list the loop computes. -/
theorem fillLoop_eq (fuel x p : Nat) :
    ∀ n i res, List.length res = i + n →
      fillLoop fuel x p n i res =
        match vandermondeLoop fuel x p n i with
        | .error e => .error e
        | .ok vs => .ok (res.take i ++ vs) := by
  intro n
  induction n with
  | zero =>
    intro i res hlen
    rw [fillLoop, vandermondeLoop]
    simp only
    rw [List.append_nil, List.take_of_length_le (by omega)]
  | succ n ih =>
    intro i res hlen
    rw [fillLoop, vandermondeLoop]
    cases Pow fuel x i p with
    | error e => rfl
    | ok v =>
      simp only
      rw [ih (i + 1) (res.set i v) (by rw [List.length_set]; omega)]
      cases vandermondeLoop fuel x p n (i + 1) with
      | error e => rfl
      | ok vs =>
        simp only
        rw [take_set_succ res i v (by omega), List.append_assoc]
        rfl

/-- Once the allocation succeeds, the whole function returns what the loop
computes. -/
theorem GenerateVandermondeFull_eq (avail fuel x k p : Nat) (hk : 8 * k ≤ maxAlloc)
    (hav : k ≤ avail) :
    GenerateVandermondeFull avail fuel x k p = GenerateVandermonde fuel x k p := by
  unfold GenerateVandermondeFull makeSlice GenerateVandermonde
  rw [if_neg (by omega), if_neg (by omega)]
  simp only
  rw [fillLoop_eq fuel x p k 0 _ (by simp)]
  cases vandermondeLoop fuel x p k 0 with
  | error e => rfl
  | ok vs => simp

/-- C7 (counterexample). The threshold `2^62` is a `uint64`, but its slice
would take `2^65` bytes: `make` panics and `GenerateVandermonde(3, 2^62, 7)`
returns nothing, whatever the heap and the fuel. -/
theorem GenerateVandermondeFull_huge_threshold :
    (2 : Nat) ^ 62 < 2 ^ 64 ∧ Nat.Prime 7 ∧
      (∀ avail fuel, GenerateVandermondeFull avail fuel 3 (2 ^ 62) 7 = .error .lenOutOfRange) ∧
      ∀ avail fuel v, GenerateVandermondeFull avail fuel 3 (2 ^ 62) 7 ≠ .ok v := by
  have h : ∀ avail fuel,
      GenerateVandermondeFull avail fuel 3 (2 ^ 62) 7 = .error .lenOutOfRange := by
    intro avail fuel
    unfold GenerateVandermondeFull makeSlice maxAlloc
    rw [if_pos (by norm_num)]
  refine ⟨by norm_num, by norm_num, h, ?_⟩
  intro avail fuel v
  rw [h avail fuel]
  simp

/-- C7 (amended). For a prime `p < 2^63`, a point `1 ≤ x < p` and a threshold
`k` whose slice the runtime allocates (`8 * k ≤ maxAlloc` bytes, within the
available heap), `GenerateVandermonde(x, k, p)` returns a list of length `k`
whose entry at index `i` is `x^i mod p`. -/
theorem GenerateVandermondeFull_powers (p x k avail : Nat) (hp : p.Prime) (hp63 : p < 2 ^ 63)
    (hx1 : 1 ≤ x) (hx : x < p) (hk : 8 * k ≤ maxAlloc) (hav : k ≤ avail)
    (fuel : Nat) (hf : p ≤ fuel) :
    ∃ v, GenerateVandermondeFull avail fuel x k p = .ok v ∧ v.length = k ∧
      ∀ i, i < k → v[i]? = some (x ^ i % p) := by
  rw [GenerateVandermondeFull_eq avail fuel x k p hk hav]
  refine ⟨_, GenerateVandermonde_eq p x k hp.two_le hp63 hx1 hx fuel (by omega), by simp, ?_⟩
  intro i hi
  simp [List.getElem?_map, List.getElem?_range hi]

theorem GenerateVandermondeFull_powers_witness :
    ∃ v, GenerateVandermondeFull 4 7 3 4 7 = .ok v ∧ v.length = 4 ∧
      ∀ i, i < 4 → v[i]? = some (3 ^ i % 7) :=
  GenerateVandermondeFull_powers 7 3 4 4 (by norm_num) (by norm_num) (by norm_num)
    (by norm_num) (by norm_num [maxAlloc]) (le_refl _) 7 (le_refl _)

/-- C8. For a prime `p < 2^63` and pairwise-distinct nonzero points below `p`,
`GenerateVandermondeInverse` returns a list of the same length, in input
order, whose entry `i` lies in `[0, p-1]` and is congruent modulo `p` to the
product over `m ≠ i` of `points[m] * (points[m] - points[i])⁻¹`. -/
theorem GenerateVandermondeInverse_lagrange (p : Nat) (hp : p.Prime) (hp63 : p < 2 ^ 63)
    (pts : List Nat) (hnd : pts.Nodup) (hx : ∀ x ∈ pts, 1 ≤ x ∧ x < p)
    (fuel : Nat) (hf : p ≤ fuel) :
    ∃ ws, GenerateVandermondeInverse fuel pts p = .ok ws ∧ ws.length = pts.length ∧
      ∀ i, i < pts.length → ws.getD i 0 < p ∧
        (ws.getD i 0 : ZMod p) =
          ∏ m ∈ (Finset.range pts.length).filter (fun m => m ≠ i),
            (pts.getD m 0 : ZMod p) * ((pts.getD m 0 : ZMod p) - (pts.getD i 0 : ZMod p))⁻¹ :=
  GenerateVandermondeInverse_spec p hp hp63 pts (fun x h => (hx x h).2) (fun x h => (hx x h).1)
    hnd fuel hf

theorem GenerateVandermondeInverse_lagrange_witness :
    ∃ ws, GenerateVandermondeInverse 7 [1, 2, 3] 7 = .ok ws ∧ ws.length = [1, 2, 3].length ∧
      ∀ i, i < [1, 2, 3].length → ws.getD i 0 < 7 ∧
        (ws.getD i 0 : ZMod 7) =
          ∏ m ∈ (Finset.range [1, 2, 3].length).filter (fun m => m ≠ i),
            (([1, 2, 3] : List Nat).getD m 0 : ZMod 7) *
              ((([1, 2, 3] : List Nat).getD m 0 : ZMod 7) -
                (([1, 2, 3] : List Nat).getD i 0 : ZMod 7))⁻¹ :=
  GenerateVandermondeInverse_lagrange 7 (by norm_num) (by norm_num) [1, 2, 3] (by decide)
    (by decide) 7 (le_refl _)

/-- With base `0` the second multiplication of `Pow` is
`MultiplyNonOverflow(0, 0, p)`, which never returns. -/
theorem powLoop_zero_diverges (p : Nat) (hp : 1 ≤ p) (fuel n : Nat) :
    powLoop fuel 0 p (n + 1) 0 = .error .outOfFuel := by
  unfold powLoop
  rw [MultiplyNonOverflow_zero_zero p hp fuel]

theorem Pow_zero_diverges (p : Nat) (hp : 1 ≤ p) (y : Nat) (hy : 2 ≤ y) :
    ∀ fuel, Pow fuel 0 y p = .error .outOfFuel := by
  intro fuel
  obtain ⟨n, rfl⟩ : ∃ n, y = n + 2 := ⟨y - 2, by omega⟩
  unfold Pow
  rw [if_neg (by omega)]
  unfold powLoop
  cases fuel with
  | zero => rfl
  | succ f =>
    have h1 : MultiplyNonOverflow (f + 1) 1 0 p = .ok 0 := by
      unfold MultiplyNonOverflow
      rw [if_neg (by omega), if_pos rfl]
    rw [h1]
    exact powLoop_zero_diverges p hp (f + 1) n

/-- C9 (failing input). `Pow(0, 2, 7)` never returns, although `0 < 7` and
`0^2 mod 7 = 0`; with exponent `0` or `1` the base `0` is handled. -/
theorem Pow_zero_two_seven :
    (∀ fuel, Pow fuel 0 2 7 = .error .outOfFuel ∧ Pow fuel 0 2 7 ≠ .ok (0 ^ 2 % 7)) ∧
      Pow 1 0 0 7 = .ok 1 ∧ Pow 1 0 1 7 = .ok 0 := by
  refine ⟨fun fuel => ?_, rfl, rfl⟩
  rw [Pow_zero_diverges 7 (by norm_num) 2 (le_refl _) fuel]
  exact ⟨rfl, by simp⟩

/-- C10. For `1 ≤ p < 2^63` and `a, b < p`, `SubField(a, b, p)` returns the
mathematical `(a - b) mod p`, a value below `p` (and `0` when `a = b`); the
addition `a + p` and the subtraction it performs are exact, with no
wrap-around. -/
theorem SubField_correct (a b p : Nat) (hp1 : 1 ≤ p) (hp63 : p < 2 ^ 63) (ha : a < p)
    (hb : b < p) (fuel : Nat) (hf : 2 ≤ fuel) :
    SubField fuel a b p = .ok (((a : Int) - (b : Int)) % (p : Int)).toNat ∧
      (((a : Int) - (b : Int)) % (p : Int)).toNat < p ∧
      (a = b → SubField fuel a b p = .ok 0) ∧
      (b < a → (sub64 a b : Int) = (a : Int) - (b : Int)) ∧
      (a ≤ b → (add64 a p : Int) = (a : Int) + (p : Int) ∧
        (sub64 (add64 a p) b : Int) = (a : Int) + (p : Int) - (b : Int)) := by
  have hval : (((a : Int) - (b : Int)) % (p : Int)).toNat = (a + p - b) % p := by
    have h1 : ((a : Int) - (b : Int)) % (p : Int) = (((a + p - b : Nat) : Int)) % (p : Int) := by
      rw [Nat.cast_sub (by omega), Nat.cast_add]
      have : (a : Int) + (p : Int) - (b : Int) = (a : Int) - (b : Int) + (p : Int) := by ring
      rw [this, Int.add_emod_self]
    rw [h1, ← Int.natCast_mod, Int.toNat_ofNat]
  have hres := SubField_eq a b p hp1 hp63 ha hb fuel hf
  refine ⟨by rw [hval]; exact hres, by rw [hval]; exact Nat.mod_lt _ (by omega), ?_, ?_, ?_⟩
  · intro hab
    subst hab
    rw [hres]
    congr 1
    have : a + p - a = p := by omega
    rw [this, Nat.mod_self]
  · intro hba
    rw [sub64_small a b (by omega) (by omega), Nat.cast_sub (by omega)]
  · intro hab
    rw [add64_small a p (by omega), sub64_small (a + p) b (by omega) (by omega),
      Nat.cast_sub (by omega), Nat.cast_add]
    exact ⟨rfl, rfl⟩

theorem SubField_correct_witness :
    SubField 2 3 5 7 = .ok (((3 : Int) - (5 : Int)) % (7 : Int)).toNat ∧
      (((3 : Int) - (5 : Int)) % (7 : Int)).toNat < 7 ∧
      (3 = 5 → SubField 2 3 5 7 = .ok 0) ∧
      (5 < 3 → (sub64 3 5 : Int) = (3 : Int) - (5 : Int)) ∧
      (3 ≤ 5 → (add64 3 7 : Int) = (3 : Int) + (7 : Int) ∧
        (sub64 (add64 3 7) 5 : Int) = (3 : Int) + (7 : Int) - (5 : Int)) :=
  SubField_correct 3 5 7 (by norm_num) (by norm_num) (by norm_num) (by norm_num) 2 (le_refl _)

/-- C6. Concrete scenario with `p = 0xfffffffffffc001`: the Vandermonde vectors
of `5` and `11` for threshold `2` are `[1, 5]` and `[1, 11]`, and the weights
of the points `[5, 11]` combine `f(5) = 62` and `f(11) = 116` into `17`. -/
theorem scenario_ringPrime :
    ringPrime = 0xfffffffffffc001 ∧
      ∃ fuel, GenerateVandermonde fuel 5 2 ringPrime = .ok [1, 5] ∧
        GenerateVandermonde fuel 11 2 ringPrime = .ok [1, 11] ∧
        ∃ w, GenerateVandermondeInverse fuel [5, 11] ringPrime = .ok w ∧
          (w.getD 0 0 * 62 + w.getD 1 0 * 116) % ringPrime = 17 := by
  refine ⟨rfl, 128, by rfl, by rfl, [192153584101138434, 960767920505692160], by rfl, by rfl⟩

theorem coeff_coeffPoly (p n : Nat) (a : Nat → ZMod p) (m : Nat) (hm : m < n) :
    (∑ i ∈ Finset.range n, Polynomial.C (a i) * Polynomial.X ^ i).coeff m = a m := by
  rw [Polynomial.finset_sum_coeff]
  simp only [Polynomial.coeff_C_mul_X_pow]
  rw [Finset.sum_eq_single m]
  · simp
  · intro b _ hb
    rw [if_neg (fun h => hb h.symm)]
  · intro h
    exact absurd (Finset.mem_range.2 hm) h

/-- The class of a share of the polynomial `c0 + x * h(x)`, with the higher
coefficients `hi` split off. -/
theorem share_cast_cons (p n x c0 : Nat) (hi : List Nat) (hlen : hi.length = n) :
    ((weightedSum (c0 :: hi) ((List.range (n + 1)).map (fun j => x ^ j % p)) % p : Nat) :
        ZMod p) =
      (c0 : ZMod p) + (x : ZMod p) *
        (∑ m ∈ Finset.range n, Polynomial.C (hi.getD m 0 : ZMod p) * Polynomial.X ^ m).eval
          (x : ZMod p) := by
  rw [share_cast p (n + 1) x (c0 :: hi) (by simp [hlen]), Finset.sum_range_succ', eval_coeffPoly,
    Finset.mul_sum, add_comm]
  congr 1
  · simp
  · apply Finset.sum_congr rfl
    intro m _
    rw [List.getD_cons_succ, pow_succ]
    ring

theorem points_injOn (p : Nat) (pts : List Nat) (hlt : ∀ x ∈ pts, x < p) (hnd : pts.Nodup) :
    Set.InjOn (fun j : Fin pts.length => (pts.getD j 0 : ZMod p))
      (Finset.univ : Finset (Fin pts.length)) := by
  intro a _ b _ hab
  simp only at hab
  rw [getD_eq_getElem pts a a.2, getD_eq_getElem pts b b.2] at hab
  have := natCast_inj_of_lt p _ _ (hlt _ (List.getElem_mem _)) (hlt _ (List.getElem_mem _)) hab
  exact Fin.ext ((List.Nodup.getElem_inj_iff hnd).1 this)

theorem list_eq_iff_getD (l1 l2 : List Nat) (h : l1.length = l2.length) :
    l1 = l2 ↔ ∀ j, j < l1.length → l1.getD j 0 = l2.getD j 0 := by
  constructor
  · intro e j _
    rw [e]
  · intro hall
    apply List.ext_getElem h
    intro j h1 h2
    have := hall j h1
    rwa [getD_eq_getElem l1 j h1, getD_eq_getElem l2 j h2] at this

/-- The shares of `c0 + x * h(x)` at the points are the observed ones exactly
when `h` takes the values `(s_j - c0) / x_j` there. -/
theorem sharesAt_iff (p : Nat) [Fact p.Prime] (hp63 : p < 2 ^ 63) (xs ss : List Nat)
    (hslen : ss.length = xs.length) (hx : ∀ x ∈ xs, 1 ≤ x ∧ x < p) (hs : ∀ s ∈ ss, s < p)
    (c0 : Nat) (fuel : Nat) (hf : p ≤ fuel) (hi : List Nat) (hlen : hi.length = xs.length) :
    sharesAt fuel (c0 :: hi) (xs.length + 1) p xs = .ok ss ↔
      ∀ j : Fin xs.length,
        (∑ m ∈ Finset.range xs.length,
            Polynomial.C (hi.getD m 0 : ZMod p) * Polynomial.X ^ m).eval
          (xs.getD j 0 : ZMod p) =
          ((ss.getD j 0 : ZMod p) - (c0 : ZMod p)) * (xs.getD j 0 : ZMod p)⁻¹ := by
  have hp : p.Prime := Fact.out
  have hp2 : 2 ≤ p := hp.two_le
  rw [sharesAt_eq p (xs.length + 1) hp2 hp63 (c0 :: hi) fuel hf xs hx, Except.ok.injEq,
    list_eq_iff_getD _ _ (by simp [hslen])]
  simp only [List.length_map]
  constructor
  · intro h j
    have hj := h j j.2
    rw [getD_map_of_lt _ xs 0 j j.2] at hj
    have hc := share_cast_cons p xs.length (xs.getD j 0) c0 hi hlen
    rw [hj] at hc
    have hxne : (xs.getD j 0 : ZMod p) ≠ 0 :=
      natCast_ne_zero_of_lt p _ (hx _ (getD_mem_of_lt xs j j.2)).1
        (hx _ (getD_mem_of_lt xs j j.2)).2
    rw [hc, add_sub_cancel_left, mul_comm, ← mul_assoc, inv_mul_cancel₀ hxne, one_mul]
  · intro h j hj
    rw [getD_map_of_lt _ xs 0 j hj]
    apply natCast_inj_of_lt p _ _ (Nat.mod_lt _ (by omega))
      (hs _ (getD_mem_of_lt ss j (by omega)))
    have hxne : (xs.getD j 0 : ZMod p) ≠ 0 :=
      natCast_ne_zero_of_lt p _ (hx _ (getD_mem_of_lt xs j hj)).1
        (hx _ (getD_mem_of_lt xs j hj)).2
    rw [share_cast_cons p xs.length (xs.getD j 0) c0 hi hlen, h ⟨j, hj⟩]
    simp only
    rw [mul_comm _ ((xs.getD j 0 : ZMod p))⁻¹, ← mul_assoc, mul_inv_cancel₀ hxne, one_mul,
      add_sub_cancel]

/-- A polynomial of degree below `n` is recovered from the residues of its
first `n` coefficients. -/
theorem eval_coeff_list (p n : Nat) [Fact p.Prime] (hn : 1 ≤ n) (H : Polynomial (ZMod p))
    (hdeg : H.degree < (n : WithBot Nat)) (x : ZMod p) :
    (∑ m ∈ Finset.range n,
        Polynomial.C (((List.ofFn (fun m : Fin n => (H.coeff m).val)).getD m 0 : Nat) : ZMod p) *
          Polynomial.X ^ m).eval x = H.eval x := by
  have hnat : H.natDegree < n := by
    by_cases h0 : H = 0
    · rw [h0, Polynomial.natDegree_zero]; omega
    · exact (Polynomial.natDegree_lt_iff_degree_lt h0).2 hdeg
  rw [eval_coeffPoly, Polynomial.eval_eq_sum_range' hnat]
  apply Finset.sum_congr rfl
  intro m hm
  rw [Finset.mem_range] at hm
  congr 1
  rw [getD_eq_getElem _ m (by simpa using hm), List.getElem_ofFn]
  exact ZMod.natCast_zmod_val _

/-- C5. Fewer than `k` shares leave the secret undetermined: for a prime
`p < 2^63`, `k ≥ 2`, any `k-1` pairwise-distinct nonzero points below `p`, any
share values below `p` and any candidate secret `c0 < p`, exactly one vector of
higher coefficients (each below `p`) makes the dealer polynomial take the
observed shares at the points. The count of consistent polynomials is thus `1`
for every candidate secret. -/
theorem fewer_shares_unique_completion (p k : Nat) (hp : p.Prime) (hp63 : p < 2 ^ 63)
    (hk : 2 ≤ k) (xs ss : List Nat) (hxlen : xs.length = k - 1) (hslen : ss.length = k - 1)
    (hnd : xs.Nodup) (hx : ∀ x ∈ xs, 1 ≤ x ∧ x < p) (hs : ∀ s ∈ ss, s < p)
    (c0 : Nat) (_hc0 : c0 < p) (fuel : Nat) (hf : p ≤ fuel) :
    ∃! hi : List Nat, hi.length = k - 1 ∧ (∀ c ∈ hi, c < p) ∧
      sharesAt fuel (c0 :: hi) k p xs = .ok ss := by
  haveI : Fact p.Prime := ⟨hp⟩
  have hk' : k = xs.length + 1 := by omega
  subst hk'
  have hn : 1 ≤ xs.length := by omega
  have hslen' : ss.length = xs.length := by omega
  have hinj := points_injOn p xs (fun x h => (hx x h).2) hnd
  have hcard : (Finset.univ : Finset (Fin xs.length)).card = xs.length := by simp
  refine ⟨List.ofFn (fun m : Fin xs.length =>
    ((Lagrange.interpolate Finset.univ (fun j : Fin xs.length => (xs.getD j 0 : ZMod p))
      (fun j : Fin xs.length =>
        ((ss.getD j 0 : ZMod p) - (c0 : ZMod p)) * (xs.getD j 0 : ZMod p)⁻¹)).coeff m).val),
    ⟨by simp, ?_, ?_⟩, ?_⟩
  · intro c hc
    obtain ⟨m, rfl⟩ := (List.mem_ofFn _ _).1 hc
    exact ZMod.val_lt _
  · rw [sharesAt_iff p hp63 xs ss hslen' hx hs c0 fuel hf _ (by simp)]
    intro j
    have hdeg := Lagrange.degree_interpolate_lt
      (fun j : Fin xs.length =>
        ((ss.getD j 0 : ZMod p) - (c0 : ZMod p)) * (xs.getD j 0 : ZMod p)⁻¹) hinj
    rw [hcard] at hdeg
    rw [eval_coeff_list p xs.length hn _ hdeg]
    exact Lagrange.eval_interpolate_at_node _ hinj (Finset.mem_univ j)
  · intro hi' ⟨hlen', hlt', hsh'⟩
    have hlen2 : hi'.length = xs.length := by omega
    rw [sharesAt_iff p hp63 xs ss hslen' hx hs c0 fuel hf hi' hlen2] at hsh'
    have hdeg := Lagrange.degree_interpolate_lt
      (fun j : Fin xs.length =>
        ((ss.getD j 0 : ZMod p) - (c0 : ZMod p)) * (xs.getD j 0 : ZMod p)⁻¹) hinj
    have hpoly : (∑ m ∈ Finset.range xs.length,
        Polynomial.C (hi'.getD m 0 : ZMod p) * Polynomial.X ^ m) =
        Lagrange.interpolate Finset.univ (fun j : Fin xs.length => (xs.getD j 0 : ZMod p))
          (fun j : Fin xs.length =>
            ((ss.getD j 0 : ZMod p) - (c0 : ZMod p)) * (xs.getD j 0 : ZMod p)⁻¹) := by
      apply Polynomial.eq_of_degrees_lt_of_eval_index_eq Finset.univ hinj
      · rw [hcard]; exact degree_coeffPoly p xs.length _
      · exact hdeg
      · intro j _
        rw [Lagrange.eval_interpolate_at_node _ hinj (Finset.mem_univ j)]
        exact hsh' j
    rw [list_eq_iff_getD _ _ (by simp [hlen2])]
    intro m hm
    rw [hlen2] at hm
    have hco := congrArg (fun q : Polynomial (ZMod p) => (q.coeff m).val) hpoly
    simp only at hco
    rw [coeff_coeffPoly p xs.length _ m hm, ZMod.val_natCast,
      Nat.mod_eq_of_lt (hlt' _ (getD_mem_of_lt hi' m (by omega)))] at hco
    rw [getD_eq_getElem (List.ofFn _) m (by simpa using hm), List.getElem_ofFn]
    exact hco

theorem fewer_shares_unique_completion_witness :
    ∃! hi : List Nat, hi.length = 3 - 1 ∧ (∀ c ∈ hi, c < 7) ∧
      sharesAt 7 (4 :: hi) 3 7 [2, 5] = .ok [1, 6] :=
  fewer_shares_unique_completion 7 3 (by norm_num) (by norm_num) (by norm_num) [2, 5] [1, 6]
    rfl rfl (by decide) (by decide) (by decide) 4 (by norm_num) 7 (le_refl _)

/-- C11. For a prime `p < 2^63` and `1 ≤ x < p`, `MultiplicativeInverse(x, p)`
terminates and returns a value in `[1, p-1]`. -/
theorem MultiplicativeInverse_range (p x : Nat) (hp : p.Prime) (hp63 : p < 2 ^ 63)
    (hx1 : 1 ≤ x) (hx : x < p) (fuel : Nat) (hf : x ≤ fuel) :
    ∃ inv, MultiplicativeInverse fuel x p = .ok inv ∧ 1 ≤ inv ∧ inv ≤ p - 1 := by
  obtain ⟨inv, hinv, h1, hlt, _⟩ := MultiplicativeInverse_spec p x hp hp63 hx1 hx fuel hf
  exact ⟨inv, hinv, h1, by omega⟩

theorem MultiplicativeInverse_range_witness :
    ∃ inv, MultiplicativeInverse 3 3 7 = .ok inv ∧ 1 ≤ inv ∧ inv ≤ 7 - 1 :=
  MultiplicativeInverse_range 7 3 (by norm_num) (by norm_num) (by norm_num) (by norm_num)
    3 (le_refl _)

/-- Every value returned over unbounded naturals is below `p`. -/
theorem MultiplyNonOverflowExact_lt (p : Nat) (hp1 : 1 ≤ p) :
    ∀ fuel x y r, x < p → y < p → MultiplyNonOverflowExact fuel x y p = .ok r → r < p := by
  intro fuel
  induction fuel with
  | zero => intro x y r _ _ h; simp [MultiplyNonOverflowExact] at h
  | succ n ih =>
    intro x y r hx hy h
    unfold MultiplyNonOverflowExact at h
    by_cases h1 : y = 1
    · rw [if_pos h1] at h
      cases h
      exact hx
    · rw [if_neg h1] at h
      by_cases h2 : x = 1
      · rw [if_pos h2] at h
        cases h
        exact hy
      · rw [if_neg h2] at h
        by_cases h3 : y % 2 = 0
        · rw [if_pos h3, mod64_ok _ _ (by omega)] at h
          exact ih _ _ r (Nat.mod_lt _ (by omega)) (by omega) h
        · rw [if_neg h3] at h
          cases hrec : MultiplyNonOverflowExact n x (y - 1) p with
          | error e => rw [hrec] at h; simp at h
          | ok r1 =>
            rw [hrec] at h
            simp only at h
            rw [mod64_ok _ _ (by omega)] at h
            cases h
            exact Nat.mod_lt _ (by omega)

/-- The wrap-around evaluation agrees with the unbounded one, and every step
stays in range, for operands below `p < 2^63`. -/
theorem MultiplyNonOverflow_exact (p : Nat) (hp1 : 1 ≤ p) (hp63 : p < 2 ^ 63) :
    ∀ fuel x y, x < p → y < p →
      stepsInRange fuel x y p = true ∧
        MultiplyNonOverflow fuel x y p = MultiplyNonOverflowExact fuel x y p := by
  intro fuel
  induction fuel with
  | zero =>
    intro x y hx _
    exact ⟨by simp [stepsInRange, hx], rfl⟩
  | succ n ih =>
    intro x y hx hy
    rw [stepsInRange, MultiplyNonOverflow, MultiplyNonOverflowExact]
    by_cases h1 : y = 1
    · rw [if_pos h1, if_pos h1, if_pos h1]
      exact ⟨by simp [hx], rfl⟩
    · by_cases h2 : x = 1
      · rw [if_neg h1, if_neg h1, if_neg h1, if_pos h2, if_pos h2, if_pos h2]
        exact ⟨by simp [hx], rfl⟩
      · by_cases h3 : y % 2 = 0
        · have hw : 2 * x < word := by unfold word; omega
          obtain ⟨ihs, ihe⟩ := ih (2 * x % p) (y / 2) (Nat.mod_lt _ (by omega)) (by omega)
          rw [if_neg h1, if_neg h2, if_pos h3, if_neg h1, if_neg h2, if_pos h3,
            if_neg h1, if_neg h2, if_pos h3, mul64_small 2 x (by unfold word at hw; omega),
            mod64_ok _ _ (by omega)]
          simp only
          exact ⟨by simp [hx, hw, ihs], ihe⟩
        · obtain ⟨ihs, ihe⟩ := ih x (y - 1) hx (by omega)
          rw [if_neg h1, if_neg h2, if_neg h3, if_neg h1, if_neg h2, if_neg h3,
            if_neg h1, if_neg h2, if_neg h3, sub64_small y 1 (by omega) (by omega), ihe]
          cases hrec : MultiplyNonOverflowExact n x (y - 1) p with
          | error e => exact ⟨by simp [hx, ihs], rfl⟩
          | ok r =>
            have hr := MultiplyNonOverflowExact_lt p hp1 n x (y - 1) r hx (by omega) hrec
            have hw : x + r < word := by unfold word; omega
            simp only
            rw [add64_small x r (by unfold word at hw; omega)]
            exact ⟨by simp [hx, ihs, hw], rfl⟩

/-- C12. `MultiplyNonOverflow` never overflows 64 bits: for `1 ≤ p < 2^63` and
`a, b < p`, at every depth of the recursion the first argument stays below `p`
and each intermediate value (`2 * locA`, `locA` plus the recursive result) is
below `2^64`, and the `uint64` evaluation gives the same result as the
evaluation over unbounded naturals. -/
theorem MultiplyNonOverflow_no_overflow (a b p : Nat) (hp1 : 1 ≤ p) (hp63 : p < 2 ^ 63)
    (ha : a < p) (hb : b < p) :
    ∀ fuel, stepsInRange fuel a b p = true ∧
      MultiplyNonOverflow fuel a b p = MultiplyNonOverflowExact fuel a b p :=
  fun fuel => MultiplyNonOverflow_exact p hp1 hp63 fuel a b ha hb

theorem MultiplyNonOverflow_no_overflow_witness :
    stepsInRange 8 3 5 7 = true ∧
      MultiplyNonOverflow 8 3 5 7 = MultiplyNonOverflowExact 8 3 5 7 :=
  MultiplyNonOverflow_no_overflow 3 5 7 (by norm_num) (by norm_num) (by norm_num) (by norm_num) 8

/-- C14 (counterexample). The draws `ringPrime, 1, ringPrime + 1` are 64-bit
values, and the setup turns them into the points `0, 1, 1`: one is zero and two
coincide. -/
theorem setupEvalPoints_zero_and_collision :
    (∀ r ∈ [ringPrime, 1, ringPrime + 1], r < 2 ^ 64) ∧
      setupEvalPoints [ringPrime, 1, ringPrime + 1] = [0, 1, 1] ∧
      ¬ ((∀ x ∈ setupEvalPoints [ringPrime, 1, ringPrime + 1], x ≠ 0) ∧
        (setupEvalPoints [ringPrime, 1, ringPrime + 1]).Nodup) := by
  have h : setupEvalPoints [ringPrime, 1, ringPrime + 1] = [0, 1, 1] := by
    simp [setupEvalPoints, ringPrime]
  refine ⟨by simp [ringPrime], h, ?_⟩
  rw [h]
  decide

/-- C14 (amended). The setup computes one point per draw, each below
`ringPrime`; the points are all nonzero and pairwise distinct exactly when no
draw is a multiple of `ringPrime` and no two draws are congruent modulo
`ringPrime` (the setup itself checks neither). -/
theorem setupEvalPoints_distinct_iff (draws : List Nat) :
    (setupEvalPoints draws).length = draws.length ∧
      (∀ i, i < draws.length →
        (setupEvalPoints draws).getD i 0 = draws.getD i 0 % ringPrime) ∧
      (∀ x ∈ setupEvalPoints draws, x < ringPrime) ∧
      (((∀ x ∈ setupEvalPoints draws, x ≠ 0) ∧ (setupEvalPoints draws).Nodup) ↔
        ((∀ r ∈ draws, ¬ ringPrime ∣ r) ∧
          draws.Pairwise (fun r s => r % ringPrime ≠ s % ringPrime))) := by
  unfold setupEvalPoints
  refine ⟨by simp, ?_, ?_, ?_⟩
  · intro i hi
    exact getD_map_of_lt _ draws 0 i hi
  · intro x hx
    obtain ⟨r, _, rfl⟩ := List.mem_map.1 hx
    exact Nat.mod_lt _ (by unfold ringPrime; norm_num)
  · rw [List.Nodup, List.pairwise_map]
    constructor
    · rintro ⟨h0, hpw⟩
      refine ⟨fun r hr hd => h0 _ (List.mem_map.2 ⟨r, hr, rfl⟩) (Nat.mod_eq_zero_of_dvd hd), hpw⟩
    · rintro ⟨h0, hpw⟩
      refine ⟨fun x hx => ?_, hpw⟩
      obtain ⟨r, hr, rfl⟩ := List.mem_map.1 hx
      exact fun h => h0 r hr (Nat.dvd_of_mod_eq_zero h)

theorem setupEvalPoints_distinct_iff_witness :
    (setupEvalPoints [5, 11, 3]).length = [5, 11, 3].length ∧
      (∀ i, i < [5, 11, 3].length →
        (setupEvalPoints [5, 11, 3]).getD i 0 = [5, 11, 3].getD i 0 % ringPrime) ∧
      (∀ x ∈ setupEvalPoints [5, 11, 3], x < ringPrime) ∧
      (((∀ x ∈ setupEvalPoints [5, 11, 3], x ≠ 0) ∧ (setupEvalPoints [5, 11, 3]).Nodup) ↔
        ((∀ r ∈ [5, 11, 3], ¬ ringPrime ∣ r) ∧
          [5, 11, 3].Pairwise (fun r s => r % ringPrime ≠ s % ringPrime))) :=
  setupEvalPoints_distinct_iff [5, 11, 3]

/-- C15. For any modulus `2 ≤ p < 2^63` (prime or not), `a < p` and
`1 ≤ b < p`, `MultiplyNonOverflow(a, b, p)` terminates and returns
`(a * b) mod p`, a value below `p`; each recursive call has a strictly smaller
second argument that is still at least `1`. -/
theorem MultiplyNonOverflow_terminates (a b p : Nat) (_hp2 : 2 ≤ p) (hp63 : p < 2 ^ 63)
    (ha : a < p) (hb1 : 1 ≤ b) (hb : b < p) (fuel : Nat) (hf : b ≤ fuel) :
    MultiplyNonOverflow fuel a b p = .ok (a * b % p) ∧ a * b % p < p ∧
      (b ≠ 1 → a ≠ 1 →
        (b % 2 = 0 → 1 ≤ b / 2 ∧ b / 2 < b) ∧
          (b % 2 ≠ 0 → 1 ≤ sub64 b 1 ∧ sub64 b 1 < b)) := by
  refine ⟨MultiplyNonOverflow_eq p hp63 fuel a b ha hb1 hb hf, Nat.mod_lt _ (by omega), ?_⟩
  intro hb' _
  refine ⟨fun h => by omega, fun h => ?_⟩
  rw [sub64_small b 1 hb1 (by omega)]
  omega

theorem MultiplyNonOverflow_terminates_witness :
    MultiplyNonOverflow 6 4 6 9 = .ok (4 * 6 % 9) ∧ 4 * 6 % 9 < 9 ∧
      (6 ≠ 1 → 4 ≠ 1 →
        (6 % 2 = 0 → 1 ≤ 6 / 2 ∧ 6 / 2 < 6) ∧
          (6 % 2 ≠ 0 → 1 ≤ sub64 6 1 ∧ sub64 6 1 < 6)) :=
  MultiplyNonOverflow_terminates 4 6 9 (by norm_num) (by norm_num) (by norm_num) (by norm_num)
    (by norm_num) 6 (le_refl _)

/-- With point `0` the third entry is `Pow(0, 2, p)`, which never returns. -/
theorem GenerateVandermonde_zero_diverges (p : Nat) (hp : 1 ≤ p) (k : Nat) (hk : 3 ≤ k) :
    ∀ fuel, GenerateVandermonde fuel 0 k p = .error .outOfFuel := by
  intro fuel
  obtain ⟨n, rfl⟩ : ∃ n, k = n + 3 := ⟨k - 3, by omega⟩
  have h0 : Pow fuel 0 0 p = .ok 1 := by unfold Pow; rw [if_pos rfl]
  have h2 : Pow fuel 0 (0 + 1 + 1) p = .error .outOfFuel :=
    Pow_zero_diverges p hp 2 (le_refl _) fuel
  unfold GenerateVandermonde
  rw [vandermondeLoop, h0]
  simp only
  rw [vandermondeLoop]
  cases h1 : Pow fuel 0 (0 + 1) p with
  | error e =>
    simp only
    cases fuel with
    | zero =>
      simp [Pow, powLoop, MultiplyNonOverflow] at h1
      rw [h1]
    | succ f =>
      simp [Pow, powLoop, MultiplyNonOverflow] at h1
  | ok v =>
    simp only
    rw [vandermondeLoop, h2]

/-- C16. A zero operand makes the recursion miss every base case: for `p ≥ 1`,
`MultiplyNonOverflow(0, 0, p)` takes the even branch and recurses on the
identical arguments, so no fuel yields a value; hence `Pow(0, y, p)` returns
no value for `y ≥ 2`, and `GenerateVandermonde(0, k, p)` none for `k ≥ 3`. -/
theorem zero_operand_never_returns (p : Nat) (hp : 1 ≤ p) :
    (∀ fuel, MultiplyNonOverflow (fuel + 1) 0 0 p = MultiplyNonOverflow fuel 0 0 p) ∧
      (∀ fuel, MultiplyNonOverflow fuel 0 0 p = .error .outOfFuel) ∧
      (∀ y, 2 ≤ y → ∀ fuel, Pow fuel 0 y p = .error .outOfFuel) ∧
      (∀ k, 3 ≤ k → ∀ fuel, GenerateVandermonde fuel 0 k p = .error .outOfFuel) := by
  refine ⟨fun fuel => ?_, MultiplyNonOverflow_zero_zero p hp, Pow_zero_diverges p hp,
    GenerateVandermonde_zero_diverges p hp⟩
  rw [MultiplyNonOverflow, if_neg (by omega), if_neg (by omega), if_pos (by rfl),
    mod64_ok _ _ (by omega)]
  simp only [mul64, Nat.mul_zero, Nat.zero_mod, Nat.zero_div]

theorem zero_operand_never_returns_witness :
    (∀ fuel, MultiplyNonOverflow (fuel + 1) 0 0 7 = MultiplyNonOverflow fuel 0 0 7) ∧
      (∀ fuel, MultiplyNonOverflow fuel 0 0 7 = .error .outOfFuel) ∧
      (∀ y, 2 ≤ y → ∀ fuel, Pow fuel 0 y 7 = .error .outOfFuel) ∧
      (∀ k, 3 ≤ k → ∀ fuel, GenerateVandermonde fuel 0 k 7 = .error .outOfFuel) :=
  zero_operand_never_returns 7 (by norm_num)

/-- Subtracting a value from itself: one recursive call, result `0`, as long
as `x + p` fits in 64 bits. -/
theorem SubField_self (p x : Nat) (hp1 : 1 ≤ p) (hp : p ≤ 2 ^ 63) (hx : x < p) (fuel : Nat) :
    SubField (fuel + 2) x x p = .ok 0 := by
  rw [SubField, if_neg (by omega), add64_small x p (by omega), SubField, if_pos (by omega),
    sub64_small (x + p) x (by omega) (by omega), mod64_ok _ _ (by omega)]
  congr 1
  have : x + p - x = p := by omega
  rw [this, Nat.mod_self]

theorem SubField_self_cases (p x : Nat) (hp1 : 1 ≤ p) (hp : p ≤ 2 ^ 63) (hx : x < p) :
    ∀ fuel, SubField fuel x x p = .ok 0 ∨ SubField fuel x x p = .error .outOfFuel := by
  intro fuel
  rcases fuel with _ | _ | f
  · right; rfl
  · right
    rw [SubField, if_neg (by omega)]
    rfl
  · left; exact SubField_self p x hp1 hp hx f

/-- On `0` the first step of `MultiplicativeInverse` divides by zero. -/
theorem MultiplicativeInverse_zero (p fuel : Nat) :
    MultiplicativeInverse (fuel + 1) 0 p = .error .divByZero := by
  have h0 : toInt64 0 = 0 := by
    unfold toInt64 wrapInt64
    norm_num
  unfold MultiplicativeInverse
  rw [h0, inverseLoop, if_pos rfl]

theorem MultiplicativeInverse_zero_not_ok (p : Nat) :
    ∀ fuel v, MultiplicativeInverse fuel 0 p ≠ .ok v := by
  intro fuel v
  cases fuel with
  | zero => simp [MultiplicativeInverse, inverseLoop]
  | succ f => rw [MultiplicativeInverse_zero]; simp

/-- One iteration of the inner loop at an index `m ≠ i` whose point differs
from `points[i]`: the four calls return, and the loop continues with a nonzero
residue below `p`. -/
theorem inverseInner_step (p : Nat) [Fact p.Prime] (hp63 : p < 2 ^ 63) (pts : List Nat)
    (hlt : ∀ x ∈ pts, x < p) (hpos : ∀ x ∈ pts, 1 ≤ x) (fuel : Nat) (hf : p ≤ fuel)
    (i : Nat) (hi : i < pts.length) (n m acc : Nat) (hm : m < pts.length) (hmi : m ≠ i)
    (hxne : pts.getD m 0 ≠ pts.getD i 0) (hacc : acc < p) (hne : (acc : ZMod p) ≠ 0) :
    ∃ r, r < p ∧ (r : ZMod p) ≠ 0 ∧
      inverseInner fuel pts p i (n + 1) m acc = inverseInner fuel pts p i n (m + 1) r := by
  have hp : p.Prime := Fact.out
  have hp2 : 2 ≤ p := hp.two_le
  have hxmlt := hlt _ (getD_mem_of_lt pts m hm)
  have hxilt := hlt _ (getD_mem_of_lt pts i hi)
  have hxmpos := hpos _ (getD_mem_of_lt pts m hm)
  have hdlt : (pts.getD m 0 + p - pts.getD i 0) % p < p := Nat.mod_lt _ (by omega)
  have hdcast : (((pts.getD m 0 + p - pts.getD i 0) % p : Nat) : ZMod p) =
      (pts.getD m 0 : ZMod p) - (pts.getD i 0 : ZMod p) := by
    rw [ZMod.natCast_mod, Nat.cast_sub (by omega), Nat.cast_add, ZMod.natCast_self, add_zero]
  have hdne : (pts.getD m 0 : ZMod p) - (pts.getD i 0 : ZMod p) ≠ 0 := by
    intro h
    exact hxne (natCast_inj_of_lt p _ _ hxmlt hxilt (sub_eq_zero.1 h))
  have hd1 : 1 ≤ (pts.getD m 0 + p - pts.getD i 0) % p := by
    rcases Nat.eq_zero_or_pos ((pts.getD m 0 + p - pts.getD i 0) % p) with h | h
    · rw [h] at hdcast
      exact absurd hdcast.symm (by simpa using hdne)
    · exact h
  obtain ⟨inv, hinv, hinv1, hinvlt, hinvmul⟩ :=
    MultiplicativeInverse_spec p _ hp hp63 hd1 hdlt fuel (by omega)
  have hinvne : (inv : ZMod p) ≠ 0 := natCast_ne_zero_of_lt p inv hinv1 hinvlt
  have hacc1 : 1 ≤ acc := by
    rcases Nat.eq_zero_or_pos acc with h | h
    · rw [h] at hne; simp at hne
    · exact h
  refine ⟨pts.getD m 0 * inv % p * acc % p, Nat.mod_lt _ (by omega), ?_, ?_⟩
  · rw [ZMod.natCast_mod, Nat.cast_mul, ZMod.natCast_mod, Nat.cast_mul]
    exact mul_ne_zero (mul_ne_zero (natCast_ne_zero_of_lt p _ hxmpos hxmlt) hinvne) hne
  · rw [inverseInner, if_pos hmi, SubField_eq _ _ p (by omega) hp63 hxmlt hxilt fuel (by omega)]
    simp only
    rw [hinv]
    simp only
    rw [MultiplyNonOverflow_eq p hp63 fuel _ inv hxmlt hinv1 hinvlt (by omega)]
    simp only
    rw [MultiplyNonOverflow_eq p hp63 fuel _ acc (Nat.mod_lt _ (by omega)) hacc1 hacc (by omega)]

/-- With a later index `m1 ≠ i` holding the same point as index `i`, the inner
loop reaches `MultiplicativeInverse` on `0` and panics. -/
theorem inverseInner_duplicate (p : Nat) [Fact p.Prime] (hp63 : p < 2 ^ 63) (pts : List Nat)
    (hlt : ∀ x ∈ pts, x < p) (hpos : ∀ x ∈ pts, 1 ≤ x) (fuel : Nat) (hf : p ≤ fuel)
    (i : Nat) (hi : i < pts.length) (m1 : Nat) (hm1 : m1 < pts.length) (hm1i : m1 ≠ i)
    (heq : pts.getD m1 0 = pts.getD i 0) :
    ∀ n m acc, m + n = pts.length → m ≤ m1 → acc < p → (acc : ZMod p) ≠ 0 →
      inverseInner fuel pts p i n m acc = .error .divByZero := by
  have hp : p.Prime := Fact.out
  have hp2 : 2 ≤ p := hp.two_le
  intro n
  induction n with
  | zero => intro m acc hmn hmm _ _; omega
  | succ n ih =>
    intro m acc hmn hmm hacc hne
    have hm : m < pts.length := by omega
    by_cases hmi : m = i
    · rw [inverseInner, if_neg (by simpa using hmi)]
      exact ih (m + 1) acc (by omega) (by omega) hacc hne
    · by_cases hx : pts.getD m 0 = pts.getD i 0
      · obtain ⟨f, rfl⟩ : ∃ f, fuel = f + 2 := ⟨fuel - 2, by omega⟩
        rw [inverseInner, if_pos hmi, hx,
          SubField_self p _ (by omega) (by omega) (hlt _ (getD_mem_of_lt pts i hi)) f]
        simp only
        rw [MultiplicativeInverse_zero p (f + 1)]
      · obtain ⟨r, hr, hrne, hstep⟩ :=
          inverseInner_step p hp63 pts hlt hpos fuel hf i hi n m acc hm hmi hx hacc hne
        rw [hstep]
        have hmm1 : m ≠ m1 := fun h => hx (by rw [h]; exact heq)
        exact ih (m + 1) r (by omega) (by omega) hr hrne

/-- When no other index holds the point of index `i`, the inner loop returns. -/
theorem inverseInner_returns (p : Nat) [Fact p.Prime] (hp63 : p < 2 ^ 63) (pts : List Nat)
    (hlt : ∀ x ∈ pts, x < p) (hpos : ∀ x ∈ pts, 1 ≤ x) (fuel : Nat) (hf : p ≤ fuel)
    (i : Nat) (hi : i < pts.length)
    (hloc : ∀ m, m < pts.length → m ≠ i → pts.getD m 0 ≠ pts.getD i 0) :
    ∀ n m acc, m + n = pts.length → acc < p → (acc : ZMod p) ≠ 0 →
      ∃ r, inverseInner fuel pts p i n m acc = .ok r := by
  intro n
  induction n with
  | zero => intro m acc _ _ _; exact ⟨acc, rfl⟩
  | succ n ih =>
    intro m acc hmn hacc hne
    have hm : m < pts.length := by omega
    by_cases hmi : m = i
    · rw [inverseInner, if_neg (by simpa using hmi)]
      exact ih (m + 1) acc (by omega) hacc hne
    · obtain ⟨r, hr, hrne, hstep⟩ :=
        inverseInner_step p hp63 pts hlt hpos fuel hf i hi n m acc hm hmi (hloc m hm hmi)
          hacc hne
      rw [hstep]
      exact ih (m + 1) r (by omega) hr hrne

/-- With two equal entries at different indices, the outer loop panics with a
division by zero. -/
theorem inverseOuter_duplicate (p : Nat) [Fact p.Prime] (hp63 : p < 2 ^ 63) (pts : List Nat)
    (hlt : ∀ x ∈ pts, x < p) (hpos : ∀ x ∈ pts, 1 ≤ x) (fuel : Nat) (hf : p ≤ fuel)
    (i1 m1 : Nat) (hi1 : i1 < pts.length) (hm1 : m1 < pts.length) (hne : m1 ≠ i1)
    (heq : pts.getD m1 0 = pts.getD i1 0) :
    ∀ n i, i + n = pts.length → i ≤ i1 →
      inverseOuter fuel pts p n i = .error .divByZero := by
  have hp : p.Prime := Fact.out
  have hp2 : 2 ≤ p := hp.two_le
  intro n
  induction n with
  | zero => intro i hin hii; omega
  | succ n ih =>
    intro i hin hii
    have hi : i < pts.length := by omega
    rw [inverseOuter]
    by_cases hd : ∃ m, m < pts.length ∧ m ≠ i ∧ pts.getD m 0 = pts.getD i 0
    · obtain ⟨m, hm, hmi, hmeq⟩ := hd
      rw [inverseInner_duplicate p hp63 pts hlt hpos fuel hf i hi m hm hmi hmeq pts.length 0 1
        (by omega) (by omega) (by omega) (by simp)]
    · have hloc : ∀ m, m < pts.length → m ≠ i → pts.getD m 0 ≠ pts.getD i 0 :=
        fun m hm hmi h => hd ⟨m, hm, hmi, h⟩
      obtain ⟨w, hw⟩ := inverseInner_returns p hp63 pts hlt hpos fuel hf i hi hloc pts.length 0 1
        (by omega) (by omega) (by simp)
      rw [hw]
      simp only
      have hii1 : i ≠ i1 := fun h => hd ⟨m1, hm1, by rw [h]; exact hne, by rw [h]; exact heq⟩
      rw [ih (i + 1) (by omega) (by omega)]

/-- At no fuel does the inner loop return once a later index `m1 ≠ i` holds
the point of index `i`. -/
theorem inverseInner_duplicate_not_ok (p : Nat) (hp1 : 1 ≤ p) (hp : p ≤ 2 ^ 63)
    (pts : List Nat) (fuel i : Nat) (hxi : pts.getD i 0 < p) (m1 : Nat) (hm1i : m1 ≠ i)
    (heq : pts.getD m1 0 = pts.getD i 0) :
    ∀ n m acc r, m ≤ m1 → m1 < m + n → inverseInner fuel pts p i n m acc ≠ .ok r := by
  intro n
  induction n with
  | zero => intro m acc r h1 h2; omega
  | succ n ih =>
    intro m acc r hmm hmn
    rw [inverseInner]
    by_cases hmi : m = i
    · rw [if_neg (by simpa using hmi)]
      exact ih (m + 1) acc r (by omega) (by omega)
    · rw [if_pos hmi]
      by_cases hm : m = m1
      · subst hm
        rw [heq]
        rcases SubField_self_cases p _ hp1 hp hxi fuel with h | h
        · rw [h]
          simp only
          cases h2 : MultiplicativeInverse fuel 0 p with
          | error e => simp
          | ok v => exact absurd h2 (MultiplicativeInverse_zero_not_ok p fuel v)
        · rw [h]
          simp
      · cases SubField fuel (pts.getD m 0) (pts.getD i 0) p with
        | error e => simp
        | ok d =>
          simp only
          cases MultiplicativeInverse fuel d p with
          | error e => simp
          | ok inv =>
            simp only
            cases MultiplyNonOverflow fuel (pts.getD m 0) inv p with
            | error e => simp
            | ok tmp =>
              simp only
              cases MultiplyNonOverflow fuel tmp acc p with
              | error e => simp
              | ok r1 =>
                simp only
                exact ih (m + 1) r1 r (by omega) (by omega)

/-- At no fuel does the outer loop return when two entries at different
indices are equal. -/
theorem inverseOuter_duplicate_not_ok (p : Nat) (hp1 : 1 ≤ p) (hp : p ≤ 2 ^ 63)
    (pts : List Nat) (fuel : Nat) (i1 m1 : Nat) (hxi : pts.getD i1 0 < p)
    (hm1 : m1 < pts.length) (hne : m1 ≠ i1) (heq : pts.getD m1 0 = pts.getD i1 0) :
    ∀ n i ws, i ≤ i1 → i1 < i + n → inverseOuter fuel pts p n i ≠ .ok ws := by
  intro n
  induction n with
  | zero => intro i ws h1 h2; omega
  | succ n ih =>
    intro i ws hii hin
    rw [inverseOuter]
    cases hw : inverseInner fuel pts p i pts.length 0 1 with
    | error e => simp
    | ok w =>
      simp only
      by_cases hi : i = i1
      · subst hi
        exact absurd hw (inverseInner_duplicate_not_ok p hp1 hp pts fuel i hxi m1 hne heq
          pts.length 0 1 w (by omega) (by omega))
      · cases hrest : inverseOuter fuel pts p n (i + 1) with
        | error e => simp
        | ok rest => exact absurd hrest (ih (i + 1) rest (by omega) (by omega))

/-- C13 (counterexample). With `p = 2^63 + 1` and `x = 2^63 < p`, both 64-bit
values, `x + p` wraps around and `SubField(x, x, p)` returns `2`, never `0`. -/
theorem SubField_self_wraps :
    2 ^ 63 < 2 ^ 63 + 1 ∧ 2 ^ 63 + 1 < 2 ^ 64 ∧
      SubField 3 (2 ^ 63) (2 ^ 63) (2 ^ 63 + 1) = .ok 2 ∧
      ∀ fuel, SubField fuel (2 ^ 63) (2 ^ 63) (2 ^ 63 + 1) ≠ .ok 0 := by
  have h3 : ∀ f, SubField (f + 3) (2 ^ 63) (2 ^ 63) (2 ^ 63 + 1) = .ok 2 := by
    intro f
    rw [SubField, if_neg (by norm_num), SubField, if_neg (by norm_num [add64, word]),
      SubField, if_pos (by norm_num [add64, word])]
    norm_num [add64, sub64, word, mod64]
  refine ⟨by norm_num, by norm_num, h3 0, ?_⟩
  intro fuel
  rcases fuel with _ | _ | _ | f
  · simp [SubField]
  · rw [SubField, if_neg (by norm_num)]
    simp [SubField]
  · rw [SubField, if_neg (by norm_num), SubField, if_neg (by norm_num [add64, word])]
    simp [SubField]
  · rw [h3 f]
    simp

/-- C13 (amended). Duplicate evaluation points make weight generation fail:
for `1 ≤ p ≤ 2^63` and `x < p`, `SubField(x, x, p)` returns `0`; for every `p`,
`MultiplicativeInverse(0, p)` divides by zero at its first step and returns
nothing; hence for a prime `p < 2^63` and nonzero points below `p` with equal
entries at two different indices, `GenerateVandermondeInverse` panics with a
division by zero and at no fuel returns a weight list. -/
theorem duplicate_points_fail :
    (∀ p x, 1 ≤ p → p ≤ 2 ^ 63 → x < p → ∀ fuel, 2 ≤ fuel → SubField fuel x x p = .ok 0) ∧
      (∀ p fuel, MultiplicativeInverse (fuel + 1) 0 p = .error .divByZero ∧
        ∀ v, MultiplicativeInverse fuel 0 p ≠ .ok v) ∧
      (∀ p (pts : List Nat), p.Prime → p < 2 ^ 63 → (∀ x ∈ pts, 1 ≤ x ∧ x < p) →
        ∀ i m, i < pts.length → m < pts.length → m ≠ i → pts.getD m 0 = pts.getD i 0 →
          2 ≤ pts.length ∧
            (∀ fuel, p ≤ fuel → GenerateVandermondeInverse fuel pts p = .error .divByZero) ∧
            ∀ fuel ws, GenerateVandermondeInverse fuel pts p ≠ .ok ws) := by
  refine ⟨?_, ?_, ?_⟩
  · intro p x hp1 hp hx fuel hf
    obtain ⟨f, rfl⟩ : ∃ f, fuel = f + 2 := ⟨fuel - 2, by omega⟩
    exact SubField_self p x hp1 hp hx f
  · intro p fuel
    exact ⟨MultiplicativeInverse_zero p fuel, MultiplicativeInverse_zero_not_ok p fuel⟩
  · intro p pts hp hp63 hx i m hi hm hmi heq
    haveI : Fact p.Prime := ⟨hp⟩
    refine ⟨by omega, ?_, ?_⟩
    · intro fuel hf
      exact inverseOuter_duplicate p hp63 pts (fun x h => (hx x h).2) (fun x h => (hx x h).1)
        fuel hf i m hi hm hmi heq pts.length 0 (by omega) (by omega)
    · intro fuel ws
      exact inverseOuter_duplicate_not_ok p (by have := hp.two_le; omega) (by omega) pts fuel
        i m (hx _ (getD_mem_of_lt pts i hi)).2 hm hmi heq pts.length 0 ws (by omega) (by omega)

theorem duplicate_points_fail_witness :
    SubField 2 3 3 7 = .ok 0 ∧ MultiplicativeInverse 1 0 7 = .error .divByZero ∧
      GenerateVandermondeInverse 7 [1, 2, 1] 7 = .error .divByZero ∧
      ∀ fuel ws, GenerateVandermondeInverse fuel [1, 2, 1] 7 ≠ .ok ws :=
  ⟨duplicate_points_fail.1 7 3 (by norm_num) (by norm_num) (by norm_num) 2 (le_refl _),
    (duplicate_points_fail.2.1 7 0).1,
    (duplicate_points_fail.2.2 7 [1, 2, 1] (by norm_num) (by norm_num) (by decide) 0 2
      (by decide) (by decide) (by decide) rfl).2.1 7 (le_refl _),
    (duplicate_points_fail.2.2 7 [1, 2, 1] (by norm_num) (by norm_num) (by decide) 0 2
      (by decide) (by decide) (by decide) rfl).2.2⟩

end Shamir
